import Mathlib

/-!
# Verification of the puziday calendar-puzzle solver

This file gives a shallow embedding of `src/puziday.py` and proves the frozen
claims about it.

Modelling conventions:
* Python `int` is `Int` (cell coordinates can go negative during a walk).
* A piece edge such as `'DD'` (a homogeneous string of one direction letter)
  is an `Edge`: its direction letter together with the string length.
* Python `frozenset[Cell]` is a sorted, duplicate-free `List Cell`
  (structural equality of the list then coincides with set equality).
* Python `set[Placement]` is a `List Placement` used with membership
  semantics; Python set equality is member-equality of the lists.
* Python `dict` is an association list `List (Constraint × PlSet)`; value
  update preserves entry position and fresh keys are appended, matching
  Python dict insertion order.  Python dict equality is key-wise
  extensional equality (`MEqv` below).
* A Python exception (KeyError on a dict or set, a failing `assert`,
  an index error) is `Option.none` / an error result.
* The recursion of `solve` is driven by explicit fuel; running out of fuel
  is a distinct result that no claim identifies with any Python outcome.
* Set/dict iteration order in Python is deterministic but unspecified for
  sets; the model fixes concrete orders.  All claims proved here are
  insensitive to that choice.
-/

/-- Number of rows of the board grid (`GRID_ROWS = 8`). -/
def GRID_ROWS : Nat := 8

/-- Number of columns of the board grid (`GRID_COLS = 7`). -/
def GRID_COLS : Nat := 7

/-- `NUM_CELLS_TO_COVER = GRID_COLS * GRID_ROWS - 3 - 6` from the source. -/
def NUM_CELLS_TO_COVER : Nat := GRID_COLS * GRID_ROWS - 3 - 6

/-- One of the four direction letters a piece edge string starts with. -/
inductive Direction where
  | U
  | D
  | L
  | R
deriving DecidableEq, Repr

/-- An edge string such as `'DD'`: its direction letter and its length. -/
structure Edge where
  dir : Direction
  steps : Nat
deriving DecidableEq, Repr

/-- The `Piece` dataclass: name, edge tuple, color. -/
structure Piece where
  name : String
  edges : List Edge
  rgb_color_hex : String
deriving DecidableEq, Repr

/-- Shorthand for a unit edge (a one-letter edge string). -/
def e1 (d : Direction) : Edge := ⟨d, 1⟩

/-- The fixed `PIECES` catalog from the source. -/
def PIECES : List Piece := [
  ⟨"Pento L", [e1 .L, e1 .U, e1 .U, e1 .U], "#FAFF81"⟩,
  ⟨"Pento T", [e1 .R, e1 .R, e1 .U, ⟨.D, 2⟩], "#FFC53A"⟩,
  ⟨"Pento P", [e1 .R, e1 .R, e1 .D, e1 .L], "#E06D06"⟩,
  ⟨"Pento N", [e1 .R, e1 .U, e1 .R, e1 .R], "#B26700"⟩,
  ⟨"Pento V", [e1 .R, e1 .R, e1 .D, e1 .D], "#004E89"⟩,
  ⟨"Pento U", [e1 .U, e1 .R, e1 .R, e1 .D], "#177E89"⟩,
  ⟨"Pento Z", [e1 .R, e1 .D, e1 .D, e1 .R], "#412234"⟩,
  ⟨"Tetr I", [e1 .R, e1 .R, e1 .R], "#63A088"⟩,
  ⟨"Tetr S", [e1 .R, e1 .U, e1 .R], "#252F5F"⟩,
  ⟨"Tetr L", [e1 .L, e1 .U, e1 .U], "#5C8001"⟩]

/-- `rotate_90deg_counterclockwise`: relabel each edge's direction
`L→D, U→L, R→U, D→R`, keeping the edge length. -/
def rotate_90deg_counterclockwise (piece : Piece) : Piece :=
  ⟨piece.name,
   piece.edges.map (fun e =>
     ⟨match e.dir with
      | .L => .D
      | .U => .L
      | .R => .U
      | .D => .R, e.steps⟩),
   piece.rgb_color_hex⟩

/-- `mirror_vertically`: swap `L↔R`, keep `U`/`D`, keeping edge lengths. -/
def mirror_vertically (piece : Piece) : Piece :=
  ⟨piece.name,
   piece.edges.map (fun e =>
     ⟨match e.dir with
      | .L => .R
      | .U => .U
      | .R => .L
      | .D => .D, e.steps⟩),
   piece.rgb_color_hex⟩

/-- The orientation set generated for one piece by the module-level loop:
the piece, its four successive rotations, then the mirror of the last
rotation and its four successive rotations, collected as a set
(modelled as a duplicate-free list). -/
def orientationSet (piece : Piece) : List Piece :=
  let r := rotate_90deg_counterclockwise
  let p1 := r piece
  let p2 := r p1
  let p3 := r p2
  let p4 := r p3
  let q0 := mirror_vertically p4
  let q1 := r q0
  let q2 := r q1
  let q3 := r q2
  let q4 := r q3
  ([piece, p1, p2, p3, p4, q1, q2, q3, q4]).dedup

/-- The `ORIENTATIONS` dict: piece name to orientation set, in catalog order. -/
def ORIENTATIONS : List (String × List Piece) :=
  PIECES.map (fun p => (p.name, orientationSet p))

/-- The `Cell` dataclass. -/
structure Cell where
  row : Int
  col : Int
deriving DecidableEq, Repr

/-- Exact-cover constraint: a piece-name key or a cell key of the
`constraint_to_placements` dict (Python mixes `str` and `Cell` keys;
they are never equal to each other). -/
inductive Constraint where
  | piece (name : String)
  | cell (c : Cell)
deriving DecidableEq, Repr

/-- The `Placement` dataclass: a piece orientation plus its frozenset of
cells (kept as a sorted duplicate-free list). -/
structure Placement where
  piece : Piece
  cells : List Cell
deriving DecidableEq, Repr

/-- `Placement.satisfied_constraints`: `[self.piece.name] + list(self.cells)`. -/
def Placement.satisfied_constraints (p : Placement) : List Constraint :=
  Constraint.piece p.piece.name :: p.cells.map Constraint.cell

/-- Order used to store a frozenset of cells canonically. -/
def cellLeB (a b : Cell) : Bool :=
  decide (a.row < b.row) || (decide (a.row = b.row) && decide (a.col ≤ b.col))

/-- Ordered insertion for the canonical cell order. -/
def insertCell (c : Cell) : List Cell → List Cell
  | [] => [c]
  | d :: ds => if cellLeB c d then c :: d :: ds else d :: insertCell c ds

/-- Insertion sort by the canonical cell order. -/
def sortCells (l : List Cell) : List Cell := l.foldr insertCell []

/-- The board-validity predicate of `compute_placement`: inside the 8×7
grid, not one of the permanently invalid cells
(`row in (0,1) and col == GRID_COLS-1`, `row == GRID_ROWS-1 and col < 4`). -/
def validCell (c : Cell) : Bool :=
  decide (0 ≤ c.row) && decide (c.row < (GRID_ROWS : Int)) &&
  decide (0 ≤ c.col) && decide (c.col < (GRID_COLS : Int)) &&
  !((decide (c.row = 0) || decide (c.row = 1)) && decide (c.col = (GRID_COLS : Int) - 1)) &&
  !(decide (c.row = (GRID_ROWS : Int) - 1) && decide (c.col < 4))

/-- The walk of `compute_placement`: the anchor cell followed by the cell
reached after each edge. -/
def walkCells : Cell → List Edge → List Cell
  | c, [] => [c]
  | c, e :: es =>
    let c' : Cell :=
      match e.dir with
      | .U => ⟨c.row - e.steps, c.col⟩
      | .D => ⟨c.row + e.steps, c.col⟩
      | .L => ⟨c.row, c.col - e.steps⟩
      | .R => ⟨c.row, c.col + e.steps⟩
    c :: walkCells c' es

/-- `compute_placement`: walk the piece's edges from the anchor, validate
every visited cell, and return the placement over the frozenset of
visited cells (or `none` when some cell is invalid). -/
def compute_placement (cell : Cell) (piece : Piece) : Option Placement :=
  let cells := walkCells cell piece.edges
  if cells.all validCell then some ⟨piece, sortCells cells.dedup⟩ else none

/-- All 56 grid positions, in the row-major order of the generation loop. -/
def allCells : List Cell :=
  (List.range GRID_ROWS).flatMap (fun r => (List.range GRID_COLS).map (fun c => ⟨(r : Int), (c : Int)⟩))

/-- The raw stream of placements produced by the generation loop, before
being collected into the `PLACEMENTS` set. -/
def PLACEMENTS_gen : List Placement :=
  allCells.flatMap (fun cell =>
    ORIENTATIONS.flatMap (fun po => po.2.filterMap (fun orient => compute_placement cell orient)))

/-- The `PLACEMENTS` set (as a duplicate-free list). -/
def PLACEMENTS : List Placement := PLACEMENTS_gen.dedup

/-- The 50 valid board cells. -/
def validCells : List Cell := allCells.filter validCell

/-- `month_to_cell` (1 = January). -/
def month_to_cell (month : Int) : Cell :=
  ⟨(month - 1).fdiv 6, (month - 1).emod 6⟩

/-- `day_to_cell`. -/
def day_to_cell (day : Int) : Cell :=
  ⟨2 + (day - 1).fdiv (GRID_COLS : Int), (day - 1).emod (GRID_COLS : Int)⟩

/-- `day_of_week_to_cell` (1 = Sunday); modelled for indices 1..7 only. -/
def day_of_week_to_cell (day_of_week : Int) : Cell :=
  ([⟨6, 3⟩, ⟨6, 4⟩, ⟨6, 5⟩, ⟨6, 6⟩, ⟨7, 4⟩, ⟨7, 5⟩, ⟨7, 6⟩] : List Cell).getD
    (day_of_week - 1).toNat ⟨6, 3⟩

/-- The per-query filter of `solve_for_day`: keep the placements whose cell
set avoids every reserved cell. -/
def filterReserved (rs : List Cell) (ps : List Placement) : List Placement :=
  ps.filter (fun p => rs.all (fun r => decide (r ∉ p.cells)))

/-- A Python `set[Placement]`. -/
abbrev PlSet := List Placement

/-- The `constraint_to_placements` dict. -/
abbrev PlMap := List (Constraint × PlSet)

/-- Dict lookup (first matching entry). -/
def mlookup : PlMap → Constraint → Option PlSet
  | [], _ => none
  | e :: m, c => if e.1 = c then some e.2 else mlookup m c

/-- Dict value update at an existing key, preserving entry order
(the identity when the key is absent). -/
def mupdate : PlMap → Constraint → PlSet → PlMap
  | [], _, _ => []
  | e :: m, c, v => if e.1 = c then (c, v) :: m else e :: mupdate m c v

/-- Dict key deletion. -/
def mdelete (m : PlMap) (c : Constraint) : PlMap :=
  m.filter (fun e => decide (e.1 ≠ c))

/-- Dict insertion of a fresh key (Python appends new keys). -/
def minsert (m : PlMap) (c : Constraint) (v : PlSet) : PlMap := m ++ [(c, v)]

/-- Python `set.add`: idempotent insertion. -/
def psetAdd (s : PlSet) (p : Placement) : PlSet := if p ∈ s then s else p :: s

/-- One iteration of the inner loop of `prune`: remove placement `p` from
`constraint_to_placements[c]` for every `c` in `cs`; `set.remove` raises
(`none`) when `p` is absent, and the dict lookup raises when `c` is absent. -/
def removePlacement (p : Placement) : List Constraint → PlMap → Option PlMap
  | [], m => some m
  | c :: cs, m =>
    match mlookup m c with
    | none => none
    | some s =>
      if p ∈ s then removePlacement p cs (mupdate m c (s.filter (fun q => decide (q ≠ p))))
      else none

/-- Remove each placement of the snapshot from every constraint it
satisfies (the two inner loops of `prune`). -/
def removePlacements : List Placement → PlMap → Option PlMap
  | [], m => some m
  | p :: ps, m =>
    match removePlacement p p.satisfied_constraints m with
    | none => none
    | some m2 => removePlacements ps m2

/-- One iteration of the outer loop of `prune`: snapshot the satisfied
constraint's candidate set, remove each of its placements everywhere,
assert the candidate set is now empty, and delete the constraint key. -/
def pruneStep (k : Constraint) (m : PlMap) : Option (PlSet × PlMap) :=
  match mlookup m k with
  | none => none
  | some snap =>
    match removePlacements snap m with
    | none => none
    | some m2 =>
      match mlookup m2 k with
      | none => none
      | some rest => if rest = [] then some (snap, mdelete m2 k) else none

/-- `prune(satisfied_constraints, constraint_to_places)`: returns the
recorded removed-placement sets (in the order of the constraint list) and
the pruned dict, or `none` when some exception is raised. -/
def prune : List Constraint → PlMap → Option (List PlSet × PlMap)
  | [], m => some ([], m)
  | k :: ks, m =>
    match pruneStep k m with
    | none => none
    | some (snap, m2) =>
      match prune ks m2 with
      | none => none
      | some (snaps, m3) => some (snap :: snaps, m3)

/-- One iteration of the inner loop of `backtrack`: re-add placement `p` to
`constraint_to_placements[c]` for every `c` in `cs` (dict lookup raises
when `c` is absent). -/
def addPlacement (p : Placement) : List Constraint → PlMap → Option PlMap
  | [], m => some m
  | c :: cs, m =>
    match mlookup m c with
    | none => none
    | some s => addPlacement p cs (mupdate m c (psetAdd s p))

/-- Re-add each placement of a restored candidate set to every constraint
it satisfies. -/
def addPlacements : List Placement → PlMap → Option PlMap
  | [], m => some m
  | p :: ps, m =>
    match addPlacement p p.satisfied_constraints m with
    | none => none
    | some m2 => addPlacements ps m2

/-- One iteration of the outer loop of `backtrack`: assert the constraint
key is absent, re-install its recorded candidate set, and re-add every
placement of that set everywhere. -/
def backtrackStep (k : Constraint) (snap : PlSet) (m : PlMap) : Option PlMap :=
  if (mlookup m k).isSome then none
  else addPlacements snap (minsert m k snap)

/-- Run backtrack steps over an explicit (constraint, snapshot) list. -/
def backtrackAux : List (Constraint × PlSet) → PlMap → Option PlMap
  | [], m => some m
  | e :: rest, m =>
    match backtrackStep e.1 e.2 m with
    | none => none
    | some m2 => backtrackAux rest m2

/-- `backtrack(satisfied_constraints, removed_placements, ...)`: restore
the constraints in reverse order, pairing each with its recorded snapshot
(popped from the end of the snapshot list); a length mismatch is an
exception. -/
def backtrack (scs : List Constraint) (snaps : List PlSet) (m : PlMap) : Option PlMap :=
  if scs.length = snaps.length then backtrackAux ((scs.zip snaps).reverse) m else none

/-- `min(constraint_to_placements, key=lambda c: len(...))`: the first key,
in dict order, whose candidate set has minimal size. -/
def chooseMin (m : PlMap) : Option Constraint :=
  m.foldl (fun acc e =>
    match acc with
    | none => some e.1
    | some k =>
      if ((mlookup m e.1).getD []).length < ((mlookup m k).getD []).length then some e.1
      else some k) none

/-- Outcome of the recursive search, paired with the final dict state. -/
inductive SearchRes where
  | err
  | fuelOut
  | nosol
  | found (sol : List Placement)
deriving DecidableEq, Repr

/-- The candidate loop of `solve` (lines 216-227): try each candidate
placement: prune, recurse (through `rec`, the fuel-decremented search),
return on success, backtrack and continue on failure. -/
def solveLoopF (rec : PlMap → SearchRes × PlMap) : List Placement → PlMap → SearchRes × PlMap
  | [], m => (.nosol, m)
  | p :: rest, m =>
    match prune p.satisfied_constraints m with
    | none => (.err, m)
    | some (snaps, m2) =>
      match snaps with
      | [] => (.err, m2)
      | s0 :: _ =>
        if s0 = [] then (.err, m2)
        else
          match rec m2 with
          | (.found sol, m3) => (.found (p :: sol), m3)
          | (.nosol, m3) =>
            match backtrack p.satisfied_constraints snaps m3 with
            | none => (.err, m3)
            | some m4 => solveLoopF rec rest m4
          | (r, m3) => (r, m3)

/-- The recursive `solve`: empty dict is success; otherwise choose the
minimum-candidate constraint, fail when it has no candidates, and try its
candidates in order. -/
def solve : Nat → PlMap → SearchRes × PlMap
  | 0, m => (.fuelOut, m)
  | n + 1, m =>
    if m = [] then (.found [], m)
    else
      match chooseMin m with
      | none => (.err, m)
      | some k =>
        match mlookup m k with
        | none => (.err, m)
        | some cands => if cands = [] then (.nosol, m) else solveLoopF (solve n) cands m

/-- The `constraint_to_placements` construction of `solve_x`: one entry per
catalog piece name, then one entry per covered cell added through
`setdefault`. -/
def buildMap (ps : List Placement) : PlMap :=
  let m1 : PlMap := PIECES.foldl
    (fun m pc =>
      minsert m (Constraint.piece pc.name) (ps.filter (fun p => decide (p.piece.name = pc.name))))
    []
  ps.foldl (fun m p =>
    p.cells.foldl (fun m c =>
      match mlookup m (Constraint.cell c) with
      | none => minsert m (Constraint.cell c) [p]
      | some s => mupdate m (Constraint.cell c) (psetAdd s p)) m) m1

/-- Outcome of `solve_x`: the failing cardinality assert (before any
search), an exception inside the search, fuel exhaustion, `None`, or a
solution list. -/
inductive SolveXRes where
  | badConstraintCount
  | searchErr
  | fuelOut
  | noSolution
  | solution (sol : List Placement)
deriving DecidableEq, Repr

/-- `solve_x`: build the constraint dict, assert its cardinality, search. -/
def solve_x (fuel : Nat) (all_placements : List Placement) : SolveXRes :=
  let m := buildMap all_placements
  if m.length = PIECES.length + NUM_CELLS_TO_COVER then
    match solve fuel m with
    | (.found sol, _) => .solution sol
    | (.nosol, _) => .noSolution
    | (.err, _) => .searchErr
    | (.fuelOut, _) => .fuelOut
  else .badConstraintCount

/-- `solve_for_day`: map the date to its three reserved cells, filter the
placement universe, and run `solve_x`. -/
def solve_for_day (fuel : Nat) (month day day_of_week : Int) : SolveXRes :=
  solve_x fuel
    (filterReserved [month_to_cell month, day_to_cell day, day_of_week_to_cell day_of_week]
      PLACEMENTS)

/-! ## Extensional equality of sets and dicts -/

/-- Python set equality: member equality of the modelling lists. -/
def SEqv (s t : PlSet) : Prop := ∀ q : Placement, q ∈ s ↔ q ∈ t

/-- Python equality of an optional candidate set. -/
def OEqv : Option PlSet → Option PlSet → Prop
  | none, none => True
  | some s, some t => SEqv s t
  | _, _ => False

/-- Python dict equality of two `constraint_to_placements` states: the same
keys, and member-equal candidate sets at every key. -/
def MEqv (m1 m2 : PlMap) : Prop := ∀ c : Constraint, OEqv (mlookup m1 c) (mlookup m2 c)

theorem SEqv_refl (s : PlSet) : SEqv s s := fun _ => Iff.rfl

theorem SEqv_symm {s t : PlSet} (h : SEqv s t) : SEqv t s := fun q => (h q).symm

theorem SEqv_trans {s t u : PlSet} (h1 : SEqv s t) (h2 : SEqv t u) : SEqv s u :=
  fun q => (h1 q).trans (h2 q)

theorem OEqv_refl (o : Option PlSet) : OEqv o o := by
  cases o with
  | none => trivial
  | some s => exact SEqv_refl s

theorem OEqv_symm {o1 o2 : Option PlSet} (h : OEqv o1 o2) : OEqv o2 o1 := by
  cases o1 <;> cases o2 <;> simp_all [OEqv]
  exact SEqv_symm h

theorem OEqv_trans {o1 o2 o3 : Option PlSet} (h1 : OEqv o1 o2) (h2 : OEqv o2 o3) : OEqv o1 o3 := by
  cases o1 <;> cases o2 <;> cases o3 <;> simp_all [OEqv]
  exact SEqv_trans h1 h2

theorem MEqv_refl (m : PlMap) : MEqv m m := fun _ => OEqv_refl _

theorem MEqv_symm {m1 m2 : PlMap} (h : MEqv m1 m2) : MEqv m2 m1 := fun c => OEqv_symm (h c)

theorem MEqv_trans {m1 m2 m3 : PlMap} (h1 : MEqv m1 m2) (h2 : MEqv m2 m3) : MEqv m1 m3 :=
  fun c => OEqv_trans (h1 c) (h2 c)

theorem OEqv.isSome_iff {o1 o2 : Option PlSet} (h : OEqv o1 o2) : o1.isSome ↔ o2.isSome := by
  cases o1 <;> cases o2 <;> simp_all [OEqv]

theorem OEqv.none_iff {o1 o2 : Option PlSet} (h : OEqv o1 o2) : o1 = none ↔ o2 = none := by
  cases o1 <;> cases o2 <;> simp_all [OEqv]

theorem OEqv.mem {o1 o2 : Option PlSet} {s t : PlSet} (h : OEqv o1 o2)
    (h1 : o1 = some s) (h2 : o2 = some t) {q : Placement} : q ∈ s ↔ q ∈ t := by
  subst h1; subst h2; exact h q

/-! ## Dict primitive lemmas -/

theorem mlookup_nil (c : Constraint) : mlookup [] c = none := rfl

theorem mlookup_cons (e : Constraint × PlSet) (m : PlMap) (c : Constraint) :
    mlookup (e :: m) c = if e.1 = c then some e.2 else mlookup m c := rfl

theorem mlookup_mupdate_ne (m : PlMap) {c c' : Constraint} (v : PlSet) (h : c' ≠ c) :
    mlookup (mupdate m c v) c' = mlookup m c' := by
  induction m with
  | nil => rfl
  | cons e m ih =>
    by_cases he : e.1 = c
    · simp [mupdate, he, mlookup_cons, Ne.symm h]
    · simp only [mupdate, he, if_false, mlookup_cons, ih]

theorem mlookup_mupdate_self (m : PlMap) {c : Constraint} (v : PlSet)
    (h : (mlookup m c).isSome) : mlookup (mupdate m c v) c = some v := by
  induction m with
  | nil => simp [mlookup] at h
  | cons e m ih =>
    by_cases he : e.1 = c
    · simp [mupdate, he, mlookup_cons]
    · simp only [mlookup_cons, he, if_false] at h
      simp only [mupdate, he, if_false, mlookup_cons, ih h]

theorem mupdate_of_none (m : PlMap) {c : Constraint} (v : PlSet)
    (h : mlookup m c = none) : mupdate m c v = m := by
  induction m with
  | nil => rfl
  | cons e m ih =>
    by_cases he : e.1 = c
    · simp [mlookup_cons, he] at h
    · simp only [mlookup_cons, he, if_false] at h
      simp [mupdate, he, ih h]

theorem keys_mupdate (m : PlMap) (c : Constraint) (v : PlSet) :
    (mupdate m c v).map Prod.fst = m.map Prod.fst := by
  induction m with
  | nil => rfl
  | cons e m ih =>
    by_cases he : e.1 = c
    · simp [mupdate, he]
    · simp [mupdate, he, ih]

theorem mlookup_mdelete (m : PlMap) (c c' : Constraint) :
    mlookup (mdelete m c) c' = if c' = c then none else mlookup m c' := by
  induction m with
  | nil => simp [mdelete, mlookup]
  | cons e m ih =>
    by_cases he : e.1 = c
    · have hdel : mdelete (e :: m) c = mdelete m c := by
        simp [mdelete, List.filter_cons, he]
      rw [hdel, ih]
      by_cases hc : c' = c
      · simp [hc]
      · have hne : e.1 ≠ c' := fun hh => hc (hh.symm.trans he)
        simp [hc, mlookup_cons, hne]
    · have hdel : mdelete (e :: m) c = e :: mdelete m c := by
        simp [mdelete, List.filter_cons, he]
      rw [hdel, mlookup_cons, ih]
      by_cases hec : e.1 = c'
      · have hc : ¬ c' = c := fun hh => he ((hec.trans hh))
        simp [hec, hc, mlookup_cons]
      · simp [hec, mlookup_cons]

theorem mlookup_minsert (m : PlMap) (c : Constraint) (v : PlSet) (c' : Constraint) :
    mlookup (minsert m c v) c' =
      match mlookup m c' with
      | some s => some s
      | none => if c = c' then some v else none := by
  induction m with
  | nil => simp [minsert, mlookup]
  | cons e m ih =>
    by_cases he : e.1 = c'
    · simp [minsert, mlookup_cons, he]
    · simpa [minsert, mlookup_cons, he] using ih

theorem mem_psetAdd (s : PlSet) (p q : Placement) :
    q ∈ psetAdd s p ↔ q = p ∨ q ∈ s := by
  unfold psetAdd
  by_cases hp : p ∈ s
  · simp only [hp, if_true]
    constructor
    · exact Or.inr
    · rintro (rfl | hq)
      · exact hp
      · exact hq
  · simp [hp]

theorem nodup_psetAdd {s : PlSet} (p : Placement) (h : s.Nodup) : (psetAdd s p).Nodup := by
  unfold psetAdd
  by_cases hp : p ∈ s
  · simpa [hp] using h
  · simp [hp, List.nodup_cons, h]

theorem mlookup_isSome_iff_mem_keys (m : PlMap) (c : Constraint) :
    (mlookup m c).isSome ↔ c ∈ m.map Prod.fst := by
  induction m with
  | nil => simp [mlookup]
  | cons e m ih =>
    by_cases he : e.1 = c
    · simp [mlookup_cons, he]
    · rw [mlookup_cons, if_neg he]
      simp only [List.map_cons, List.mem_cons]
      rw [ih]
      constructor
      · exact Or.inr
      · rintro (h | h)
        · exact absurd h.symm he
        · exact h

theorem mlookup_eq_some_mem {m : PlMap} {c : Constraint} {s : PlSet}
    (h : mlookup m c = some s) : (c, s) ∈ m := by
  induction m with
  | nil => simp [mlookup] at h
  | cons e m ih =>
    by_cases he : e.1 = c
    · rw [mlookup_cons, if_pos he, Option.some.injEq] at h
      subst he
      subst h
      rw [Prod.mk.eta]
      exact List.mem_cons_self e m
    · rw [mlookup_cons, if_neg he] at h
      exact List.mem_cons_of_mem _ (ih h)

theorem mem_mlookup_of_nodupKeys {m : PlMap} {c : Constraint} {s : PlSet}
    (hnd : (m.map Prod.fst).Nodup) (h : (c, s) ∈ m) : mlookup m c = some s := by
  induction m with
  | nil => simp at h
  | cons e m ih =>
    simp only [List.map_cons, List.nodup_cons, List.mem_map] at hnd
    rcases List.mem_cons.mp h with h1 | h1
    · subst h1; simp [mlookup_cons]
    · have : e.1 ≠ c := by
        intro hc
        exact hnd.1 ⟨(c, s), h1, hc.symm⟩
      simp only [mlookup_cons, this, if_false]
      exact ih hnd.2 h1

/-! ## The consistency invariant of the constraint dict

`MInv` is the well-formedness the Python search states always have:
* `NodupKeys`, `VWF`: type-level facts of the Python values (dict keys are
  unique; sets hold no duplicates; a placement's cells are a frozenset);
* `MSound`: every placement listed under a constraint satisfies it;
* `MClosed`: a placement present somewhere is present under every
  still-present constraint it satisfies. -/

/-- `p` is a member of the candidate set stored at key `c`. -/
def lookupHas (m : PlMap) (c : Constraint) (p : Placement) : Prop :=
  ∃ s, mlookup m c = some s ∧ p ∈ s

instance instDecLookupHas (m : PlMap) (c : Constraint) (p : Placement) :
    Decidable (lookupHas m c p) :=
  match h : mlookup m c with
  | none => isFalse (by simp [lookupHas, h])
  | some s =>
    if hp : p ∈ s then isTrue ⟨s, h, hp⟩ else isFalse (by simp [lookupHas, h, hp])

/-- The dict's keys are pairwise distinct (always true of a Python dict). -/
def NodupKeys (m : PlMap) : Prop := (m.map Prod.fst).Nodup

/-- Values are well-formed: candidate sets have no duplicates and every
placement's cell list is duplicate-free (a frozenset). -/
def VWF (m : PlMap) : Prop := ∀ e ∈ m, e.2.Nodup ∧ ∀ p ∈ e.2, p.cells.Nodup

/-- Every placement stored under a constraint satisfies that constraint. -/
def MSound (m : PlMap) : Prop := ∀ e ∈ m, ∀ p ∈ e.2, e.1 ∈ p.satisfied_constraints

/-- A stored placement is stored under every constraint it satisfies. -/
def MClosed (m : PlMap) : Prop :=
  ∀ e ∈ m, ∀ p ∈ e.2, ∀ c ∈ p.satisfied_constraints, lookupHas m c p

/-- The consistency invariant of `constraint_to_placements`. -/
def MInv (m : PlMap) : Prop := NodupKeys m ∧ VWF m ∧ MSound m ∧ MClosed m

/-- `p` appears in some candidate set of the dict. -/
def InMap (m : PlMap) (p : Placement) : Prop := ∃ e ∈ m, p ∈ e.2

instance instDecNodupKeys (m : PlMap) : Decidable (NodupKeys m) := by
  unfold NodupKeys; infer_instance

instance instDecVWF (m : PlMap) : Decidable (VWF m) := by
  unfold VWF; infer_instance

instance instDecMSound (m : PlMap) : Decidable (MSound m) := by
  unfold MSound; infer_instance

instance instDecMClosed (m : PlMap) : Decidable (MClosed m) := by
  unfold MClosed; infer_instance

instance instDecInv (m : PlMap) : Decidable (MInv m) := by
  unfold MInv; infer_instance

instance instDecInMap (m : PlMap) (p : Placement) : Decidable (InMap m p) := by
  unfold InMap; infer_instance

theorem MSound_lookup {m : PlMap} (h : MSound m) {c : Constraint} {s : PlSet} {p : Placement}
    (hl : mlookup m c = some s) (hp : p ∈ s) : c ∈ p.satisfied_constraints :=
  h _ (mlookup_eq_some_mem hl) _ hp

theorem MClosed_lookup {m : PlMap} (h : MClosed m) {c : Constraint} {s : PlSet} {p : Placement}
    (hl : mlookup m c = some s) (hp : p ∈ s) {c' : Constraint}
    (hc : c' ∈ p.satisfied_constraints) : lookupHas m c' p :=
  h _ (mlookup_eq_some_mem hl) _ hp _ hc

theorem VWF_lookup {m : PlMap} (h : VWF m) {c : Constraint} {s : PlSet}
    (hl : mlookup m c = some s) : s.Nodup ∧ ∀ p ∈ s, p.cells.Nodup :=
  h _ (mlookup_eq_some_mem hl)

theorem VWF_of_lookup {m : PlMap} (hnk : NodupKeys m)
    (h : ∀ c s, mlookup m c = some s → s.Nodup ∧ ∀ p ∈ s, p.cells.Nodup) : VWF m := by
  intro e he
  exact h e.1 e.2 (mem_mlookup_of_nodupKeys hnk (by rwa [Prod.mk.eta]))

theorem lookupHas_congr {m1 m2 : PlMap} (h : MEqv m1 m2) (c : Constraint) (p : Placement) :
    lookupHas m1 c p ↔ lookupHas m2 c p := by
  have hc := h c
  constructor
  · rintro ⟨s, hs, hp⟩
    rcases ho : mlookup m2 c with _ | t
    · rw [hs, ho] at hc; exact absurd hc (by simp [OEqv])
    · exact ⟨t, ho, (hc.mem hs ho).mp hp⟩
  · rintro ⟨s, hs, hp⟩
    rcases ho : mlookup m1 c with _ | t
    · rw [hs, ho] at hc; exact absurd hc (by simp [OEqv])
    · exact ⟨t, ho, (hc.mem ho hs).mpr hp⟩

theorem InMap.of_lookupHas {m : PlMap} {c : Constraint} {p : Placement}
    (h : lookupHas m c p) : InMap m p := by
  rcases h with ⟨s, hs, hp⟩
  exact ⟨(c, s), mlookup_eq_some_mem hs, hp⟩

theorem InMap.to_lookupHas {m : PlMap} {p : Placement} (hnk : NodupKeys m)
    (h : InMap m p) : ∃ c, lookupHas m c p := by
  rcases h with ⟨e, he, hp⟩
  exact ⟨e.1, e.2, mem_mlookup_of_nodupKeys hnk (by rwa [Prod.mk.eta]), hp⟩

theorem MInv_transfer {m m' : PlMap} (h : MInv m) (heq : MEqv m' m)
    (hnk : NodupKeys m') (hwf : VWF m') : MInv m' := by
  obtain ⟨hk, hv, hs, hc⟩ := h
  refine ⟨hnk, hwf, ?_, ?_⟩
  · intro e he p hp
    have hl : mlookup m' e.1 = some e.2 := mem_mlookup_of_nodupKeys hnk (by rwa [Prod.mk.eta])
    have ho := heq e.1
    rcases h2 : mlookup m e.1 with _ | t
    · rw [hl, h2] at ho; exact absurd ho (by simp [OEqv])
    · exact MSound_lookup hs h2 ((ho.mem hl h2).mp hp)
  · intro e he p hp c hcp
    have hl : mlookup m' e.1 = some e.2 := mem_mlookup_of_nodupKeys hnk (by rwa [Prod.mk.eta])
    have ho := heq e.1
    rcases h2 : mlookup m e.1 with _ | t
    · rw [hl, h2] at ho; exact absurd ho (by simp [OEqv])
    · exact (lookupHas_congr heq c p).mpr (MClosed_lookup hc h2 ((ho.mem hl h2).mp hp) hcp)

/-! ## Characterization of `prune` -/

/-- The filter kept by removing every member of `R` from the candidate set
of constraint `c`: `q` stays unless `q ∈ R` and `q` satisfies `c`. -/
def remKeep (R : List Placement) (c : Constraint) (q : Placement) : Bool :=
  !(decide (q ∈ R) && decide (c ∈ q.satisfied_constraints))

/-- `q` satisfies at least one constraint of `ks`. -/
def hitsB (ks : List Constraint) (q : Placement) : Bool :=
  ks.any (fun k => decide (k ∈ q.satisfied_constraints))

theorem satisfied_constraints_nodup {p : Placement} (h : p.cells.Nodup) :
    p.satisfied_constraints.Nodup := by
  unfold Placement.satisfied_constraints
  refine List.nodup_cons.mpr ⟨?_, ?_⟩
  · simp
  · exact h.map (fun a b hab => Constraint.cell.inj hab)

theorem filter_comp {α : Type} (p q : α → Bool) (l : List α) :
    (l.filter p).filter q = l.filter (fun a => p a && q a) := by
  induction l with
  | nil => rfl
  | cons a l ih =>
    by_cases hp : p a = true
    · by_cases hq : q a = true
      · simp [List.filter_cons, hp, hq, ih]
      · simp [List.filter_cons, hp, hq, ih]
    · simp [List.filter_cons, hp, ih]

theorem keys_removePlacement {p : Placement} {cs : List Constraint} {m m' : PlMap}
    (h : removePlacement p cs m = some m') : m'.map Prod.fst = m.map Prod.fst := by
  induction cs generalizing m with
  | nil => simp only [removePlacement, Option.some.injEq] at h; rw [← h]
  | cons c cs ih =>
    rcases hl : mlookup m c with _ | s
    · simp [removePlacement, hl] at h
    · by_cases hp : p ∈ s
      · have h' : removePlacement p cs (mupdate m c (s.filter (fun q => decide (q ≠ p)))) = some m' := by
          simpa [removePlacement, hl, hp] using h
        rw [ih h', keys_mupdate]
      · simp [removePlacement, hl, hp] at h

theorem removePlacement_spec {p : Placement} {cs : List Constraint} {m : PlMap}
    (hnd : cs.Nodup) (hpres : ∀ c ∈ cs, lookupHas m c p) :
    ∃ m', removePlacement p cs m = some m' ∧
      ∀ c', mlookup m' c' =
        if c' ∈ cs then (mlookup m c').map (fun s => s.filter (fun q => decide (q ≠ p)))
        else mlookup m c' := by
  induction cs generalizing m with
  | nil => exact ⟨m, rfl, fun c' => by simp⟩
  | cons c cs ih =>
    obtain ⟨s, hs, hp⟩ := hpres c (List.mem_cons_self c cs)
    obtain ⟨hcn, hnd'⟩ := List.nodup_cons.mp hnd
    have hpres' : ∀ c' ∈ cs, lookupHas (mupdate m c (s.filter (fun q => decide (q ≠ p)))) c' p := by
      intro c' hc'
      have hne : c' ≠ c := fun hh => hcn (hh ▸ hc')
      obtain ⟨t, ht, hpt⟩ := hpres c' (List.mem_cons_of_mem _ hc')
      exact ⟨t, by rw [mlookup_mupdate_ne _ _ hne, ht], hpt⟩
    obtain ⟨m', hm', hchar⟩ := ih hnd' hpres'
    refine ⟨m', ?_, ?_⟩
    · simp only [removePlacement, hs, hp, if_pos, hm']
    · intro c'
      by_cases hcc : c' = c
      · subst hcc
        have hnotin : c' ∉ cs := hcn
        rw [hchar c', if_neg hnotin, mlookup_mupdate_self _ _ (by rw [hs]; rfl),
          if_pos (List.mem_cons_self c' cs), hs]
        rfl
      · rw [hchar c', mlookup_mupdate_ne _ _ hcc]
        by_cases hmem : c' ∈ cs
        · simp [List.mem_cons, hmem, hcc]
        · simp [List.mem_cons, hmem, hcc]

theorem keys_removePlacements {R : List Placement} {m m' : PlMap}
    (h : removePlacements R m = some m') : m'.map Prod.fst = m.map Prod.fst := by
  induction R generalizing m with
  | nil => simp only [removePlacements, Option.some.injEq] at h; rw [← h]
  | cons q R ih =>
    rcases h1 : removePlacement q q.satisfied_constraints m with _ | m1
    · simp [removePlacements, h1] at h
    · have h' : removePlacements R m1 = some m' := by
        simpa [removePlacements, h1] using h
      rw [ih h', keys_removePlacement h1]

theorem removePlacements_spec {R : List Placement} {m : PlMap}
    (hnd : R.Nodup) (hwf : ∀ q ∈ R, q.cells.Nodup)
    (hpres : ∀ q ∈ R, ∀ c ∈ q.satisfied_constraints, lookupHas m c q) :
    ∃ m', removePlacements R m = some m' ∧
      ∀ c, mlookup m' c = (mlookup m c).map (fun s => s.filter (remKeep R c)) := by
  induction R generalizing m with
  | nil =>
    refine ⟨m, rfl, fun c => ?_⟩
    rcases h : mlookup m c with _ | s
    · rfl
    · refine congrArg some ?_
      exact (List.filter_eq_self.mpr (fun a _ => by simp [remKeep])).symm
  | cons q R ih =>
    obtain ⟨hqn, hnd'⟩ := List.nodup_cons.mp hnd
    obtain ⟨m1, hm1, hchar1⟩ := removePlacement_spec
      (satisfied_constraints_nodup (hwf q (List.mem_cons_self q R)))
      (hpres q (List.mem_cons_self q R))
    have hpres' : ∀ q' ∈ R, ∀ c ∈ q'.satisfied_constraints, lookupHas m1 c q' := by
      intro q' hq' c hc
      obtain ⟨t, ht, hpt⟩ := hpres q' (List.mem_cons_of_mem _ hq') c hc
      by_cases hcs : c ∈ q.satisfied_constraints
      · refine ⟨t.filter (fun x => decide (x ≠ q)), ?_, ?_⟩
        · rw [hchar1 c, if_pos hcs, ht]
          rfl
        · refine List.mem_filter.mpr ⟨hpt, ?_⟩
          have hne : q' ≠ q := fun hh => hqn (hh ▸ hq')
          simp [hne]
      · refine ⟨t, ?_, hpt⟩
        rw [hchar1 c, if_neg hcs]
        exact ht
    obtain ⟨m2, hm2, hchar2⟩ := ih hnd' (fun q' hq' => hwf q' (List.mem_cons_of_mem _ hq')) hpres'
    refine ⟨m2, ?_, ?_⟩
    · simp only [removePlacements, hm1, hm2]
    · intro c
      rw [hchar2 c, hchar1 c]
      by_cases hcs : c ∈ q.satisfied_constraints
      · rw [if_pos hcs]
        rcases hml : mlookup m c with _ | s
        · rfl
        · refine congrArg some ?_
          dsimp only
          rw [filter_comp]
          apply List.filter_congr
          intro x _
          by_cases hxq : x = q
          · subst hxq
            simp [remKeep, hcs]
          · simp [remKeep, hxq, List.mem_cons]
      · rw [if_neg hcs]
        rcases hml : mlookup m c with _ | s
        · rfl
        · refine congrArg some ?_
          dsimp only
          apply List.filter_congr
          intro x _
          by_cases hxq : x = q
          · subst hxq
            simp [remKeep, hcs, hqn]
          · simp [remKeep, hxq, List.mem_cons]

theorem MSound_of_lookup {m : PlMap} (hnk : NodupKeys m)
    (h : ∀ c s, mlookup m c = some s → ∀ p ∈ s, c ∈ p.satisfied_constraints) : MSound m := by
  intro e he
  exact h e.1 e.2 (mem_mlookup_of_nodupKeys hnk (by rwa [Prod.mk.eta]))

theorem MClosed_of_lookup {m : PlMap} (hnk : NodupKeys m)
    (h : ∀ c s, mlookup m c = some s → ∀ p ∈ s, ∀ c' ∈ p.satisfied_constraints, lookupHas m c' p) :
    MClosed m := by
  intro e he
  exact h e.1 e.2 (mem_mlookup_of_nodupKeys hnk (by rwa [Prod.mk.eta]))

theorem lookupHas_of_eq {m : PlMap} {c : Constraint} {s : PlSet}
    (h : mlookup m c = some s) (x : Placement) : lookupHas m c x ↔ x ∈ s := by
  constructor
  · rintro ⟨t, ht, hx⟩
    rw [h] at ht
    exact (Option.some.inj ht) ▸ hx
  · exact fun hx => ⟨s, h, hx⟩

theorem keys_mdelete (m : PlMap) (c : Constraint) :
    (mdelete m c).map Prod.fst = (m.map Prod.fst).filter (fun k => decide (k ≠ c)) := by
  induction m with
  | nil => rfl
  | cons e m ih =>
    by_cases he : e.1 = c
    · simp [mdelete, List.filter_cons, he] at ih ⊢
      exact ih
    · simp [mdelete, List.filter_cons, he] at ih ⊢
      exact ih

theorem pruneStep_fst {k : Constraint} {m m1 : PlMap} {snap : PlSet}
    (h : pruneStep k m = some (snap, m1)) : mlookup m k = some snap := by
  rcases hl : mlookup m k with _ | s
  · simp [pruneStep, hl] at h
  · rcases h2 : removePlacements s m with _ | m2
    · simp [pruneStep, hl, h2] at h
    · rcases h3 : mlookup m2 k with _ | rest
      · simp [pruneStep, hl, h2, h3] at h
      · by_cases h4 : rest = []
        · simp only [pruneStep, hl, h2, h3] at h
          rw [if_pos h4] at h
          exact congrArg some (Prod.mk.inj (Option.some.inj h)).1
        · simp [pruneStep, hl, h2, h3, h4] at h

theorem pruneStep_spec {k : Constraint} {m : PlMap} {snap : PlSet}
    (hinv : MInv m) (hk : mlookup m k = some snap) :
    ∃ m', pruneStep k m = some (snap, m') ∧
      (∀ c, mlookup m' c = if c = k then none
        else (mlookup m c).map (fun s => s.filter (remKeep snap c))) ∧
      m'.map Prod.fst = (m.map Prod.fst).filter (fun x => decide (x ≠ k)) := by
  obtain ⟨hnk, hvwf, hsound, hclosed⟩ := hinv
  obtain ⟨hsnd, hscw⟩ := VWF_lookup hvwf hk
  have hpres : ∀ q ∈ snap, ∀ c ∈ q.satisfied_constraints, lookupHas m c q :=
    fun q hq c hc => MClosed_lookup hclosed hk hq hc
  obtain ⟨m2, hm2, hchar2⟩ := removePlacements_spec hsnd hscw hpres
  have hm2k : mlookup m2 k = some (snap.filter (remKeep snap k)) := by
    rw [hchar2 k, hk]
    rfl
  have hempty : snap.filter (remKeep snap k) = [] := by
    refine List.filter_eq_nil_iff.mpr (fun q hq => ?_)
    simp [remKeep, hq, MSound_lookup hsound hk hq]
  refine ⟨mdelete m2 k, ?_, ?_, ?_⟩
  · rw [hempty] at hm2k
    simp only [pruneStep, hk, hm2, hm2k, if_pos]
  · intro c
    rw [mlookup_mdelete]
    by_cases hck : c = k
    · simp [hck]
    · simp only [hck, if_false]
      exact hchar2 c
  · rw [keys_mdelete, keys_removePlacements hm2]

theorem pruneStep_inv {k : Constraint} {m m' : PlMap} {snap : PlSet}
    (hinv : MInv m) (hk : mlookup m k = some snap)
    (hchar : ∀ c, mlookup m' c = if c = k then none
      else (mlookup m c).map (fun s => s.filter (remKeep snap c)))
    (hkeys : m'.map Prod.fst = (m.map Prod.fst).filter (fun x => decide (x ≠ k))) :
    MInv m' := by
  obtain ⟨hnk, hvwf, hsound, hclosed⟩ := hinv
  have hnk' : NodupKeys m' := by
    unfold NodupKeys at hnk ⊢
    rw [hkeys]
    exact hnk.filter _
  have hdecomp : ∀ c s', mlookup m' c = some s' →
      c ≠ k ∧ ∃ s, mlookup m c = some s ∧ s' = s.filter (remKeep snap c) := by
    intro c s' h
    rw [hchar c] at h
    by_cases hck : c = k
    · rw [if_pos hck] at h; exact absurd h (by simp)
    · rw [if_neg hck] at h
      rcases hl : mlookup m c with _ | s
      · rw [hl] at h; exact absurd h (by simp)
      · rw [hl] at h
        exact ⟨hck, s, rfl, (Option.some.inj h).symm⟩
  refine ⟨hnk', ?_, ?_, ?_⟩
  · refine VWF_of_lookup hnk' (fun c s' h => ?_)
    obtain ⟨hck, s, hs, rfl⟩ := hdecomp c s' h
    obtain ⟨h1, h2⟩ := VWF_lookup hvwf hs
    exact ⟨h1.filter _, fun p hp => h2 p (List.mem_filter.mp hp).1⟩
  · refine MSound_of_lookup hnk' (fun c s' h p hp => ?_)
    obtain ⟨hck, s, hs, rfl⟩ := hdecomp c s' h
    exact MSound_lookup hsound hs (List.mem_filter.mp hp).1
  · refine MClosed_of_lookup hnk' (fun c s' h p hp c' hc' => ?_)
    obtain ⟨hck, s, hs, rfl⟩ := hdecomp c s' h
    obtain ⟨hps, hkeep⟩ := List.mem_filter.mp hp
    have hcsat : c ∈ p.satisfied_constraints := MSound_lookup hsound hs hps
    have hpnotsnap : p ∉ snap := by
      intro hcon
      simp [remKeep, hcon, hcsat] at hkeep
    obtain ⟨t, ht, hpt⟩ := MClosed_lookup hclosed hs hps hc'
    have hck' : c' ≠ k := by
      intro hcon
      subst hcon
      rw [hk] at ht
      exact hpnotsnap ((Option.some.inj ht) ▸ hpt)
    refine ⟨t.filter (remKeep snap c'), ?_, ?_⟩
    · rw [hchar c', if_neg hck', ht]
      rfl
    · exact List.mem_filter.mpr ⟨hpt, by simp [remKeep, hpnotsnap]⟩

theorem prune_cons_inv {k : Constraint} {ks : List Constraint} {m m2 : PlMap}
    {snaps : List PlSet} (h : prune (k :: ks) m = some (snaps, m2)) :
    ∃ snap snaps' m1, pruneStep k m = some (snap, m1) ∧
      prune ks m1 = some (snaps', m2) ∧ snaps = snap :: snaps' := by
  rcases h1 : pruneStep k m with _ | sm
  · simp [prune, h1] at h
  · obtain ⟨snap', m1'⟩ := sm
    rcases h2 : prune ks m1' with _ | sm2
    · simp [prune, h1, h2] at h
    · obtain ⟨snaps', m2'⟩ := sm2
      simp only [prune, h1, h2] at h
      obtain ⟨h3, h4⟩ := Prod.mk.inj (Option.some.inj h)
      exact ⟨snap', snaps', m1', rfl, h4 ▸ h2, h3.symm⟩

theorem prune_length {ks : List Constraint} {m m2 : PlMap} {snaps : List PlSet}
    (h : prune ks m = some (snaps, m2)) : snaps.length = ks.length := by
  induction ks generalizing m snaps with
  | nil =>
    unfold prune at h
    obtain ⟨h1, _⟩ := Prod.mk.inj (Option.some.inj h)
    simp [← h1]
  | cons k ks ih =>
    obtain ⟨snap, snaps', m1, h1, h2, rfl⟩ := prune_cons_inv h
    simp [ih h2]

/-! ## Structural well-formedness preservation -/

theorem mem_mupdate {m : PlMap} {c : Constraint} {v : PlSet} :
    ∀ e ∈ mupdate m c v, e ∈ m ∨ e = (c, v) := by
  induction m with
  | nil => intro e he; simp [mupdate] at he
  | cons e0 m ih =>
    intro e he
    by_cases h0 : e0.1 = c
    · simp only [mupdate, h0, if_pos] at he
      rcases List.mem_cons.mp he with h | h
      · right; exact h
      · left; exact List.mem_cons_of_mem _ h
    · simp only [mupdate, h0, if_false] at he
      rcases List.mem_cons.mp he with h | h
      · left; exact h ▸ List.mem_cons_self _ _
      · rcases ih e h with h' | h'
        · left; exact List.mem_cons_of_mem _ h'
        · right; exact h'

theorem VWF_mupdate {m : PlMap} {c : Constraint} {v : PlSet} (h : VWF m)
    (hv : v.Nodup) (hw : ∀ p ∈ v, p.cells.Nodup) : VWF (mupdate m c v) := by
  intro e he
  rcases mem_mupdate e he with h1 | h1
  · exact h e h1
  · subst h1; exact ⟨hv, hw⟩

theorem VWF_mdelete {m : PlMap} {c : Constraint} (h : VWF m) : VWF (mdelete m c) :=
  fun e he => h e (List.mem_filter.mp he).1

theorem VWF_minsert {m : PlMap} {c : Constraint} {v : PlSet} (h : VWF m)
    (hv : v.Nodup) (hw : ∀ p ∈ v, p.cells.Nodup) : VWF (minsert m c v) := by
  intro e he
  rcases List.mem_append.mp he with h1 | h1
  · exact h e h1
  · rw [List.mem_singleton.mp h1]
    exact ⟨hv, hw⟩

theorem VWF_removePlacement {p : Placement} {cs : List Constraint} {m m' : PlMap}
    (h : removePlacement p cs m = some m') (hv : VWF m) : VWF m' := by
  induction cs generalizing m with
  | nil => simp only [removePlacement, Option.some.injEq] at h; rw [← h]; exact hv
  | cons c cs ih =>
    rcases hl : mlookup m c with _ | s
    · simp [removePlacement, hl] at h
    · by_cases hp : p ∈ s
      · have h' : removePlacement p cs
            (mupdate m c (s.filter (fun q => decide (q ≠ p)))) = some m' := by
          simpa [removePlacement, hl, hp] using h
        refine ih h' (VWF_mupdate hv ?_ ?_)
        · exact ((VWF_lookup hv hl).1).filter _
        · exact fun q hq => (VWF_lookup hv hl).2 q (List.mem_filter.mp hq).1
      · simp [removePlacement, hl, hp] at h

theorem VWF_removePlacements {R : List Placement} {m m' : PlMap}
    (h : removePlacements R m = some m') (hv : VWF m) : VWF m' := by
  induction R generalizing m with
  | nil => simp only [removePlacements, Option.some.injEq] at h; rw [← h]; exact hv
  | cons q R ih =>
    rcases h1 : removePlacement q q.satisfied_constraints m with _ | m1
    · simp [removePlacements, h1] at h
    · have h' : removePlacements R m1 = some m' := by
        simpa [removePlacements, h1] using h
      exact ih h' (VWF_removePlacement h1 hv)

theorem pruneStep_structure {k : Constraint} {m m1 : PlMap} {snap : PlSet}
    (h : pruneStep k m = some (snap, m1)) :
    mlookup m k = some snap ∧ ∃ m2, removePlacements snap m = some m2 ∧ m1 = mdelete m2 k := by
  rcases hl : mlookup m k with _ | s
  · simp [pruneStep, hl] at h
  · rcases h2 : removePlacements s m with _ | m2
    · simp [pruneStep, hl, h2] at h
    · rcases h3 : mlookup m2 k with _ | rest
      · simp [pruneStep, hl, h2, h3] at h
      · by_cases h4 : rest = []
        · simp only [pruneStep, hl, h2, h3] at h
          rw [if_pos h4] at h
          obtain ⟨h5, h6⟩ := Prod.mk.inj (Option.some.inj h)
          subst h5
          exact ⟨rfl, m2, h2, h6.symm⟩
        · simp [pruneStep, hl, h2, h3, h4] at h

theorem wf_pruneStep {k : Constraint} {m m1 : PlMap} {snap : PlSet}
    (h : pruneStep k m = some (snap, m1)) (hnk : NodupKeys m) (hv : VWF m) :
    NodupKeys m1 ∧ VWF m1 ∧ snap.Nodup ∧ (∀ p ∈ snap, p.cells.Nodup) := by
  obtain ⟨hl, m2, h2, rfl⟩ := pruneStep_structure h
  refine ⟨?_, VWF_mdelete (VWF_removePlacements h2 hv), (VWF_lookup hv hl).1, (VWF_lookup hv hl).2⟩
  unfold NodupKeys at hnk ⊢
  rw [keys_mdelete, keys_removePlacements h2]
  exact hnk.filter _

theorem wf_prune {ks : List Constraint} {m m' : PlMap} {snaps : List PlSet}
    (h : prune ks m = some (snaps, m')) (hnk : NodupKeys m) (hv : VWF m) :
    NodupKeys m' ∧ VWF m' ∧ ∀ s ∈ snaps, s.Nodup ∧ ∀ p ∈ s, p.cells.Nodup := by
  induction ks generalizing m snaps with
  | nil =>
    unfold prune at h
    obtain ⟨h1, h2⟩ := Prod.mk.inj (Option.some.inj h)
    rw [← h2, ← h1]
    exact ⟨hnk, hv, by simp⟩
  | cons k ks ih =>
    obtain ⟨snap, snaps', m1, h1, h2, rfl⟩ := prune_cons_inv h
    obtain ⟨hnk1, hv1, hsn, hsw⟩ := wf_pruneStep h1 hnk hv
    obtain ⟨hnk', hv', hrest⟩ := ih h2 hnk1 hv1
    refine ⟨hnk', hv', fun s hs => ?_⟩
    rcases List.mem_cons.mp hs with h3 | h3
    · rw [h3]; exact ⟨hsn, hsw⟩
    · exact hrest s h3

/-! ## Characterization of `backtrack` -/

theorem keys_addPlacement {p : Placement} {cs : List Constraint} {m m' : PlMap}
    (h : addPlacement p cs m = some m') : m'.map Prod.fst = m.map Prod.fst := by
  induction cs generalizing m with
  | nil => simp only [addPlacement, Option.some.injEq] at h; rw [← h]
  | cons c cs ih =>
    rcases hl : mlookup m c with _ | s
    · simp [addPlacement, hl] at h
    · have h' : addPlacement p cs (mupdate m c (psetAdd s p)) = some m' := by
        simpa [addPlacement, hl] using h
      rw [ih h', keys_mupdate]

theorem isSome_of_keys_eq {m1 m2 : PlMap} (h : m1.map Prod.fst = m2.map Prod.fst)
    (c : Constraint) : (mlookup m1 c).isSome ↔ (mlookup m2 c).isSome := by
  rw [mlookup_isSome_iff_mem_keys, mlookup_isSome_iff_mem_keys, h]

theorem VWF_addPlacement {p : Placement} {cs : List Constraint} {m m' : PlMap}
    (h : addPlacement p cs m = some m') (hv : VWF m) (hp : p.cells.Nodup) : VWF m' := by
  induction cs generalizing m with
  | nil => simp only [addPlacement, Option.some.injEq] at h; rw [← h]; exact hv
  | cons c cs ih =>
    rcases hl : mlookup m c with _ | s
    · simp [addPlacement, hl] at h
    · have h' : addPlacement p cs (mupdate m c (psetAdd s p)) = some m' := by
        simpa [addPlacement, hl] using h
      refine ih h' (VWF_mupdate hv (nodup_psetAdd p (VWF_lookup hv hl).1) ?_)
      intro q hq
      rcases (mem_psetAdd s p q).mp hq with h1 | h1
      · rw [h1]; exact hp
      · exact (VWF_lookup hv hl).2 q h1

theorem addPlacement_spec {p : Placement} {cs : List Constraint} {m : PlMap}
    (hpres : ∀ c ∈ cs, (mlookup m c).isSome) :
    ∃ m', addPlacement p cs m = some m' ∧
      ∀ c x, lookupHas m' c x ↔ lookupHas m c x ∨ (x = p ∧ c ∈ cs) := by
  induction cs generalizing m with
  | nil => exact ⟨m, rfl, by simp⟩
  | cons c cs ih =>
    have hsome := hpres c (List.mem_cons_self c cs)
    rcases hl : mlookup m c with _ | s
    · rw [hl] at hsome; exact absurd hsome (by simp)
    · have hpres' : ∀ c' ∈ cs, (mlookup (mupdate m c (psetAdd s p)) c').isSome := by
        intro c' hc'
        by_cases hcc : c' = c
        · subst hcc
          rw [mlookup_mupdate_self _ _ (by rw [hl]; rfl)]
          rfl
        · rw [mlookup_mupdate_ne _ _ hcc]
          exact hpres c' (List.mem_cons_of_mem _ hc')
      obtain ⟨m', hm', hchar⟩ := ih hpres'
      refine ⟨m', by simpa [addPlacement, hl] using hm', ?_⟩
      intro c' x
      rw [hchar c' x]
      by_cases hcc : c' = c
      · subst hcc
        have h1 : lookupHas (mupdate m c' (psetAdd s p)) c' x ↔ x = p ∨ x ∈ s := by
          rw [lookupHas_of_eq (mlookup_mupdate_self _ _ (by rw [hl]; rfl)), mem_psetAdd]
        rw [h1, lookupHas_of_eq hl]
        simp only [List.mem_cons]
        tauto
      · have hsame : lookupHas (mupdate m c (psetAdd s p)) c' x ↔ lookupHas m c' x := by
          unfold lookupHas
          rw [mlookup_mupdate_ne _ _ hcc]
        rw [hsame]
        simp only [List.mem_cons]
        tauto

theorem keys_addPlacements {R : List Placement} {m m' : PlMap}
    (h : addPlacements R m = some m') : m'.map Prod.fst = m.map Prod.fst := by
  induction R generalizing m with
  | nil => simp only [addPlacements, Option.some.injEq] at h; rw [← h]
  | cons q R ih =>
    rcases h1 : addPlacement q q.satisfied_constraints m with _ | m1
    · simp [addPlacements, h1] at h
    · have h' : addPlacements R m1 = some m' := by
        simpa [addPlacements, h1] using h
      rw [ih h', keys_addPlacement h1]

theorem VWF_addPlacements {R : List Placement} {m m' : PlMap}
    (h : addPlacements R m = some m') (hv : VWF m) (hw : ∀ q ∈ R, q.cells.Nodup) : VWF m' := by
  induction R generalizing m with
  | nil => simp only [addPlacements, Option.some.injEq] at h; rw [← h]; exact hv
  | cons q R ih =>
    rcases h1 : addPlacement q q.satisfied_constraints m with _ | m1
    · simp [addPlacements, h1] at h
    · have h' : addPlacements R m1 = some m' := by
        simpa [addPlacements, h1] using h
      exact ih h' (VWF_addPlacement h1 hv (hw q (List.mem_cons_self q R)))
        (fun q' hq' => hw q' (List.mem_cons_of_mem _ hq'))

theorem addPlacements_spec {R : List Placement} {m : PlMap}
    (hpres : ∀ q ∈ R, ∀ c ∈ q.satisfied_constraints, (mlookup m c).isSome) :
    ∃ m', addPlacements R m = some m' ∧
      ∀ c x, lookupHas m' c x ↔
        lookupHas m c x ∨ (x ∈ R ∧ c ∈ x.satisfied_constraints) := by
  induction R generalizing m with
  | nil => exact ⟨m, rfl, by simp⟩
  | cons q R ih =>
    obtain ⟨m1, hm1, hchar1⟩ :=
      @addPlacement_spec q q.satisfied_constraints m (hpres q (List.mem_cons_self q R))
    have hpres' : ∀ q' ∈ R, ∀ c ∈ q'.satisfied_constraints, (mlookup m1 c).isSome := by
      intro q' hq' c hc
      rw [isSome_of_keys_eq (keys_addPlacement hm1)]
      exact hpres q' (List.mem_cons_of_mem _ hq') c hc
    obtain ⟨m2, hm2, hchar2⟩ := ih hpres'
    refine ⟨m2, ?_, ?_⟩
    · simp only [addPlacements, hm1]
      exact hm2
    intro c x
    rw [hchar2 c x, hchar1 c x]
    simp only [List.mem_cons]
    constructor
    · rintro ((h | ⟨rfl, h⟩) | ⟨h1, h2⟩)
      · exact Or.inl h
      · exact Or.inr ⟨Or.inl rfl, h⟩
      · exact Or.inr ⟨Or.inr h1, h2⟩
    · rintro (h | ⟨(rfl | h1), h2⟩)
      · exact Or.inl (Or.inl h)
      · exact Or.inl (Or.inr ⟨rfl, h2⟩)
      · exact Or.inr ⟨h1, h2⟩

theorem keys_minsert (m : PlMap) (c : Constraint) (v : PlSet) :
    (minsert m c v).map Prod.fst = m.map Prod.fst ++ [c] := by
  simp [minsert]

theorem mlookup_minsert_of_some {m : PlMap} {c : Constraint} {s : PlSet}
    (k : Constraint) (v : PlSet) (h : mlookup m c = some s) :
    mlookup (minsert m k v) c = some s := by
  rw [mlookup_minsert, h]

theorem mlookup_minsert_of_none {m : PlMap} {c : Constraint}
    (k : Constraint) (v : PlSet) (h : mlookup m c = none) :
    mlookup (minsert m k v) c = if k = c then some v else none := by
  rw [mlookup_minsert, h]

theorem OEqv_of {o1 o2 : Option PlSet} (hs : o1.isSome ↔ o2.isSome)
    (hm : ∀ s t, o1 = some s → o2 = some t → ∀ x, x ∈ s ↔ x ∈ t) : OEqv o1 o2 := by
  cases o1 with
  | none =>
    cases o2 with
    | none => trivial
    | some t => simp at hs
  | some s =>
    cases o2 with
    | none => simp at hs
    | some t => exact hm s t rfl rfl

theorem backtrackAux_append (l1 l2 : List (Constraint × PlSet)) (m : PlMap) :
    backtrackAux (l1 ++ l2) m =
      match backtrackAux l1 m with
      | none => none
      | some m' => backtrackAux l2 m' := by
  induction l1 generalizing m with
  | nil => rfl
  | cons e l1 ih =>
    simp only [List.cons_append, backtrackAux]
    rcases h : backtrackStep e.1 e.2 m with _ | m2
    · rfl
    · exact ih m2

/-- The central inverse law: a successful `prune` over a consistent dict is
undone exactly by `backtrack` with the recorded snapshots, up to Python
dict/set equality, from any dict state equal to the pruned one. -/
theorem prune_backtrack {ks : List Constraint} {m m2 : PlMap} {snaps : List PlSet}
    (hinv : MInv m) (hnd : ks.Nodup)
    (hp : prune ks m = some (snaps, m2)) :
    ∀ m3, MEqv m3 m2 → NodupKeys m3 → VWF m3 →
      ∃ m4, backtrack ks snaps m3 = some m4 ∧ MEqv m4 m ∧ NodupKeys m4 ∧ VWF m4 := by
  induction ks generalizing m snaps with
  | nil =>
    intro m3 heq hnk3 hv3
    unfold prune at hp
    obtain ⟨h1, h2⟩ := Prod.mk.inj (Option.some.inj hp)
    refine ⟨m3, ?_, ?_, hnk3, hv3⟩
    · rw [← h1]
      rfl
    · rw [← h2] at heq
      exact heq
  | cons k ks ih =>
    intro m3 heq hnk3 hv3
    obtain ⟨snap, snaps', m1, h1, h2, rfl⟩ := prune_cons_inv hp
    have hk : mlookup m k = some snap := (pruneStep_structure h1).1
    obtain ⟨m1x, hstep', hchar1, hkeys1⟩ := pruneStep_spec hinv hk
    have hdet : m1 = m1x := by
      rw [h1] at hstep'
      exact (Prod.mk.inj (Option.some.inj hstep')).2
    subst hdet
    have hinv1 : MInv m1 := pruneStep_inv hinv hk hchar1 hkeys1
    obtain ⟨hkn, hknd⟩ := List.nodup_cons.mp hnd
    obtain ⟨m3b, hbt', heq1, hnk3b, hv3b⟩ := ih hinv1 hknd h2 m3 heq hnk3 hv3
    have hlen' : ks.length = snaps'.length := (prune_length h2).symm
    have hm3bk : mlookup m3b k = none := by
      have hiff := (heq1 k).none_iff
      rw [hchar1 k] at hiff
      simpa using hiff.mpr
    have hsnapwf := VWF_lookup (hinv.2.1) hk
    have hpres : ∀ q ∈ snap, ∀ c ∈ q.satisfied_constraints,
        (mlookup (minsert m3b k snap) c).isSome := by
      intro q hq c hc
      obtain ⟨t, ht, hqt⟩ := MClosed_lookup (hinv.2.2.2) hk hq hc
      by_cases hck : c = k
      · subst hck
        rw [mlookup_minsert_of_none _ _ hm3bk]
        simp
      · have h1c : mlookup m1 c = some (t.filter (remKeep snap c)) := by
          rw [hchar1 c, if_neg hck, ht]
          rfl
        have hbsome : (mlookup m3b c).isSome := by
          rw [(heq1 c).isSome_iff, h1c]
          rfl
        rcases ho : mlookup m3b c with _ | u
        · rw [ho] at hbsome; exact absurd hbsome (by simp)
        · rw [mlookup_minsert_of_some _ _ ho]
          rfl
    obtain ⟨m4, hm4, hchar4⟩ := addPlacements_spec hpres
    refine ⟨m4, ?_, ?_, ?_, ?_⟩
    · unfold backtrack
      rw [if_pos (by simp [hlen'])]
      have hzip : ((k :: ks).zip (snap :: snaps')).reverse =
          (ks.zip snaps').reverse ++ [(k, snap)] := by
        simp [List.zip_cons_cons]
      rw [hzip, backtrackAux_append]
      have hbt'' : backtrackAux ((ks.zip snaps').reverse) m3 = some m3b := by
        unfold backtrack at hbt'
        rw [if_pos hlen'] at hbt'
        exact hbt'
      rw [hbt'']
      have hstep : backtrackStep k snap m3b = some m4 := by
        unfold backtrackStep
        rw [hm3bk]
        simpa using hm4
      simp only [backtrackAux, hstep]
    · intro c
      have hsome4 : (mlookup m4 c).isSome ↔ (mlookup m c).isSome := by
        rw [isSome_of_keys_eq (keys_addPlacements hm4) c,
          mlookup_isSome_iff_mem_keys, keys_minsert, List.mem_append]
        rw [← mlookup_isSome_iff_mem_keys]
        constructor
        · rintro (hs | hs)
          · have hs1 := ((heq1 c).isSome_iff).mp hs
            rw [hchar1 c] at hs1
            by_cases hck : c = k
            · rw [if_pos hck] at hs1; exact absurd hs1 (by simp)
            · rw [if_neg hck] at hs1
              rcases ho : mlookup m c with _ | t
              · rw [ho] at hs1; exact absurd hs1 (by simp)
              · rfl
          · rw [List.mem_singleton.mp hs, hk]
            rfl
        · intro hs
          by_cases hck : c = k
          · right; simp [hck]
          · left
            rw [(heq1 c).isSome_iff, hchar1 c, if_neg hck]
            rcases ho : mlookup m c with _ | t
            · rw [ho] at hs; exact absurd hs (by simp)
            · rfl
      refine OEqv_of hsome4 (fun s4 s h4 hsm x => ?_)
      have hx4 : x ∈ s4 ↔ lookupHas m4 c x := (lookupHas_of_eq h4 x).symm
      rw [hx4, hchar4 c x]
      by_cases hck : c = k
      · subst hck
        have hins : mlookup (minsert m3b c snap) c = some snap := by
          rw [mlookup_minsert_of_none _ _ hm3bk]
          simp
        rw [lookupHas_of_eq hins]
        have hsnapeq : s = snap := by
          rw [hk] at hsm
          exact Option.some.inj hsm.symm
        subst hsnapeq
        constructor
        · rintro (h | ⟨h, _⟩)
          · exact h
          · exact h
        · exact fun h => Or.inl h
      · have hins : mlookup (minsert m3b k snap) c = mlookup m3b c := by
          rcases ho : mlookup m3b c with _ | u
          · rw [mlookup_minsert_of_none _ _ ho, if_neg (fun hh => hck hh.symm)]
          · exact mlookup_minsert_of_some _ _ ho
        have h1c : mlookup m1 c = some (s.filter (remKeep snap c)) := by
          rw [hchar1 c, if_neg hck, hsm]
          rfl
        have hhas : lookupHas (minsert m3b k snap) c x ↔
            (x ∈ s ∧ remKeep snap c x = true) := by
          unfold lookupHas
          rw [hins]
          constructor
          · rintro ⟨u, hu, hxu⟩
            exact List.mem_filter.mp (((heq1 c).mem hu h1c).mp hxu)
          · intro hx
            rcases ho : mlookup m3b c with _ | u
            · have hnn := (heq1 c).none_iff.mp ho
              rw [h1c] at hnn
              exact absurd hnn (by simp)
            · exact ⟨u, rfl, ((heq1 c).mem ho h1c).mpr (List.mem_filter.mpr hx)⟩
        rw [hhas]
        constructor
        · rintro (⟨hx, _⟩ | ⟨hxsnap, hcsat⟩)
          · exact hx
          · obtain ⟨t, ht, hxt⟩ := MClosed_lookup (hinv.2.2.2) hk hxsnap hcsat
            rw [hsm] at ht
            exact (Option.some.inj ht) ▸ hxt
        · intro hx
          by_cases hxsnap : x ∈ snap
          · by_cases hcsat : c ∈ x.satisfied_constraints
            · exact Or.inr ⟨hxsnap, hcsat⟩
            · refine Or.inl ⟨hx, ?_⟩
              simp [remKeep, hcsat]
          · refine Or.inl ⟨hx, ?_⟩
            simp [remKeep, hxsnap]
    · unfold NodupKeys
      rw [keys_addPlacements hm4, keys_minsert]
      have hknotin : k ∉ m3b.map Prod.fst := by
        rw [← mlookup_isSome_iff_mem_keys, hm3bk]
        simp
      rw [List.nodup_append]
      refine ⟨hnk3b, List.nodup_singleton k, ?_⟩
      intro a ha hb
      rw [List.mem_singleton] at hb
      subst hb
      exact hknotin ha
    · exact VWF_addPlacements hm4 (VWF_minsert hv3b hsnapwf.1 hsnapwf.2) hsnapwf.2

theorem prune_spec {ks : List Constraint} {m : PlMap}
    (hinv : MInv m) (hnd : ks.Nodup) (hpres : ∀ k ∈ ks, (mlookup m k).isSome) :
    ∃ snaps m', prune ks m = some (snaps, m') ∧
      (∀ c, mlookup m' c = if c ∈ ks then none
        else (mlookup m c).map (fun s => s.filter (fun q => !(hitsB ks q)))) ∧
      MInv m' := by
  induction ks generalizing m with
  | nil =>
    refine ⟨[], m, rfl, fun c => ?_, hinv⟩
    rw [if_neg (List.not_mem_nil c)]
    rcases h : mlookup m c with _ | s
    · rfl
    · refine congrArg some ?_
      exact (List.filter_eq_self.mpr (fun a _ => by simp [hitsB])).symm
  | cons k ks ih =>
    have hks : (mlookup m k).isSome := hpres k (List.mem_cons_self k ks)
    rcases hk : mlookup m k with _ | snap
    · rw [hk] at hks; exact absurd hks (by simp)
    obtain ⟨hkn, hknd⟩ := List.nodup_cons.mp hnd
    obtain ⟨m1, hstep, hchar1, hkeys1⟩ := pruneStep_spec hinv hk
    have hinv1 := pruneStep_inv hinv hk hchar1 hkeys1
    have hpres1 : ∀ k' ∈ ks, (mlookup m1 k').isSome := by
      intro k' hk'
      have hne : k' ≠ k := fun hh => hkn (hh ▸ hk')
      rw [hchar1 k', if_neg hne]
      have hsm := hpres k' (List.mem_cons_of_mem _ hk')
      rcases ho : mlookup m k' with _ | t
      · rw [ho] at hsm; exact absurd hsm (by simp)
      · rfl
    obtain ⟨snaps', m', hps, hchar', hinv'⟩ := ih hinv1 hknd hpres1
    refine ⟨snap :: snaps', m', ?_, ?_, hinv'⟩
    · simp only [prune, hstep, hps]
    · intro c
      rw [hchar' c]
      by_cases hcks : c ∈ ks
      · simp [hcks, List.mem_cons]
      · by_cases hck : c = k
        · subst hck
          rw [if_neg hcks, hchar1 c, if_pos rfl, if_pos (List.mem_cons_self c ks)]
          rfl
        · have hknot : c ∉ k :: ks := by simp [List.mem_cons, hck, hcks]
          rw [if_neg hcks, if_neg hknot, hchar1 c, if_neg hck]
          rcases ho : mlookup m c with _ | s
          · rfl
          · refine congrArg some ?_
            dsimp only
            rw [filter_comp]
            apply List.filter_congr
            intro x hx
            have hcsat : c ∈ x.satisfied_constraints := MSound_lookup (hinv.2.2.1) ho hx
            have hxsnap : x ∈ snap ↔ k ∈ x.satisfied_constraints := by
              constructor
              · intro hxs
                exact MSound_lookup (hinv.2.2.1) hk hxs
              · intro hks'
                obtain ⟨t, ht, hxt⟩ := MClosed_lookup (hinv.2.2.2) ho hx hks'
                rw [hk] at ht
                exact (Option.some.inj ht) ▸ hxt
            by_cases hkx : k ∈ x.satisfied_constraints
            · have hxs : x ∈ snap := hxsnap.mpr hkx
              simp [remKeep, hxs, hcsat, hitsB, hkx]
            · have hxs : x ∉ snap := fun hh => hkx (hxsnap.mp hh)
              simp [remKeep, hxs, hitsB, hkx]

theorem InMap.cells_nodup {m : PlMap} {p : Placement} (hv : VWF m) (h : InMap m p) :
    p.cells.Nodup := by
  obtain ⟨e, he, hp⟩ := h
  exact (hv e he).2 p hp

theorem InMap.keys_present {m : PlMap} {p : Placement} (hc : MClosed m) (h : InMap m p) :
    ∀ c ∈ p.satisfied_constraints, (mlookup m c).isSome := by
  obtain ⟨e, he, hp⟩ := h
  intro c hcc
  obtain ⟨s, hs, _⟩ := hc e he p hp c hcc
  rw [hs]
  rfl

/-- C1: Prune/backtrack inverse law — for any `constraint_to_placements`
state `S` satisfying the mapping's consistency invariant and any placement
`P` drawn from `S`, calling `prune` with `P`'s satisfied constraints and
then `backtrack` with the same constraint list and the recorded
removed-placement sets leaves the mapping equal to `S` in the Python
sense: the same keys, and exactly the same contents of every constraint's
candidate set. -/
theorem C1_prune_backtrack_inverse (S : PlMap) (P : Placement)
    (hinv : MInv S) (hP : InMap S P) :
    ∃ snaps S2 S3,
      prune P.satisfied_constraints S = some (snaps, S2) ∧
      backtrack P.satisfied_constraints snaps S2 = some S3 ∧
      MEqv S3 S := by
  have hnd := satisfied_constraints_nodup (hP.cells_nodup hinv.2.1)
  have hpres := hP.keys_present hinv.2.2.2
  obtain ⟨snaps, S2, hp, hchar, hinv2⟩ := prune_spec hinv hnd hpres
  obtain ⟨S3, hb, heq, hnk, hv⟩ :=
    prune_backtrack hinv hnd hp S2 (MEqv_refl S2) hinv2.1 hinv2.2.1
  exact ⟨snaps, S2, S3, hp, hb, heq⟩

/-- Shared tiny example state used by the witnesses below. -/
def samplePiece : Piece := ⟨"A", [], "#000000"⟩

/-- A one-cell placement of the sample piece. -/
def samplePlacement : Placement := ⟨samplePiece, [⟨0, 0⟩]⟩

/-- A two-constraint dict holding only the sample placement. -/
def sampleMap : PlMap :=
  [(Constraint.piece "A", [samplePlacement]), (Constraint.cell ⟨0, 0⟩, [samplePlacement])]

theorem C1_prune_backtrack_inverse_witness :
    MInv sampleMap ∧ InMap sampleMap samplePlacement ∧
      ∃ snaps S2 S3,
        prune samplePlacement.satisfied_constraints sampleMap = some (snaps, S2) ∧
        backtrack samplePlacement.satisfied_constraints snaps S2 = some S3 ∧
        MEqv S3 sampleMap :=
  ⟨by decide, by decide,
    C1_prune_backtrack_inverse sampleMap samplePlacement (by decide) (by decide)⟩

/-- C10 (amended): Prune/backtrack totality holds under the full
consistency invariant `MInv` — closure (each stored placement appears
under every present constraint it satisfies) TOGETHER WITH soundness
(each stored placement satisfies its own key's constraint).  When `MInv`
holds and the pruned placement is drawn from the mapping, `prune`
completes without hitting any of its error branches (no missing-key
lookup, no removal of an absent placement, no failing assert),
`backtrack` completes without inserting into a missing key, and both
results again satisfy the invariant.  The soundness half is necessary
and is missing from the claim's closure-only invariant: see the
counterexample below. -/
theorem C10_prune_backtrack_total (S : PlMap) (P : Placement)
    (hinv : MInv S) (hP : InMap S P) :
    ∃ snaps S2, prune P.satisfied_constraints S = some (snaps, S2) ∧ MInv S2 ∧
      ∃ S3, backtrack P.satisfied_constraints snaps S2 = some S3 ∧ MInv S3 := by
  have hnd := satisfied_constraints_nodup (hP.cells_nodup hinv.2.1)
  have hpres := hP.keys_present hinv.2.2.2
  obtain ⟨snaps, S2, hp, hchar, hinv2⟩ := prune_spec hinv hnd hpres
  obtain ⟨S3, hb, heq, hnk, hv⟩ :=
    prune_backtrack hinv hnd hp S2 (MEqv_refl S2) hinv2.1 hinv2.2.1
  exact ⟨snaps, S2, hp, hinv2, S3, hb, MInv_transfer hinv heq hnk hv⟩

theorem C10_prune_backtrack_total_witness :
    MInv sampleMap ∧ InMap sampleMap samplePlacement ∧
      ∃ snaps S2, prune samplePlacement.satisfied_constraints sampleMap = some (snaps, S2) ∧
        MInv S2 ∧
        ∃ S3, backtrack samplePlacement.satisfied_constraints snaps S2 = some S3 ∧ MInv S3 :=
  ⟨by decide, by decide,
    C10_prune_backtrack_total sampleMap samplePlacement (by decide) (by decide)⟩

/-- An `"A"` placement on the single cell `(0,0)` and a `"B"` placement on
the single cell `(1,1)`. -/
def c10P : Placement := ⟨⟨"A", [], "#000000"⟩, [⟨0, 0⟩]⟩

def c10Q : Placement := ⟨⟨"B", [], "#000000"⟩, [⟨1, 1⟩]⟩

/-- A dict with duplicate-free keys, well-formed values and the closure
property (each stored placement also appears under every present
constraint it satisfies), but without soundness: the `"A"` piece entry
also holds the `"B"` placement `c10Q`, which does not satisfy the `"A"`
constraint. -/
def c10Map : PlMap := [
  (Constraint.piece "A", [c10P, c10Q]),
  (Constraint.cell ⟨0, 0⟩, [c10P]),
  (Constraint.piece "B", [c10Q]),
  (Constraint.cell ⟨1, 1⟩, [c10Q])]

/-- C10 (counterexample): the claim's closure-only invariant does not make
`prune` total.  `c10Map` has duplicate-free keys, well-formed candidate
sets and the closure property, and `c10P` is drawn from it, yet pruning
`c10P`'s satisfied constraints hits the failing assert: after removing
each member of the `"A"` candidate set from the constraints it satisfies,
the unsound extra member `c10Q` is still present under `"A"`, so the set
is not emptied and `prune` raises instead of completing. -/
theorem C10_counterexample :
    NodupKeys c10Map ∧ VWF c10Map ∧ MClosed c10Map ∧ InMap c10Map c10P ∧
      prune c10P.satisfied_constraints c10Map = none := by decide

/-! ## The recursive search restores the dict on failure -/

theorem backtrackStep_structure {k : Constraint} {snap : PlSet} {m m' : PlMap}
    (h : backtrackStep k snap m = some m') :
    mlookup m k = none ∧ addPlacements snap (minsert m k snap) = some m' := by
  unfold backtrackStep at h
  by_cases hk : (mlookup m k).isSome
  · rw [if_pos hk] at h; exact absurd h (by simp)
  · rw [if_neg hk] at h
    exact ⟨Option.not_isSome_iff_eq_none.mp hk, h⟩

theorem wf_backtrackAux : ∀ {l : List (Constraint × PlSet)} {m m' : PlMap},
    backtrackAux l m = some m' → NodupKeys m → VWF m →
    (∀ e ∈ l, e.2.Nodup ∧ ∀ p ∈ e.2, p.cells.Nodup) →
    NodupKeys m' ∧ VWF m' := by
  intro l
  induction l with
  | nil =>
    intro m m' h hnk hv _
    simp only [backtrackAux, Option.some.injEq] at h
    rw [← h]
    exact ⟨hnk, hv⟩
  | cons e l ih =>
    intro m m' h hnk hv hsw
    rcases h1 : backtrackStep e.1 e.2 m with _ | m2
    · simp [backtrackAux, h1] at h
    · have h' : backtrackAux l m2 = some m' := by
        simpa [backtrackAux, h1] using h
      obtain ⟨hnone, hadd⟩ := backtrackStep_structure h1
      have hew := hsw e (List.mem_cons_self e l)
      have hnk2 : NodupKeys m2 := by
        unfold NodupKeys
        rw [keys_addPlacements hadd, keys_minsert, List.nodup_append]
        refine ⟨hnk, List.nodup_singleton _, ?_⟩
        intro a ha hb
        rw [List.mem_singleton] at hb
        subst hb
        rw [← mlookup_isSome_iff_mem_keys, hnone] at ha
        exact absurd ha (by simp)
      have hv2 : VWF m2 := VWF_addPlacements hadd (VWF_minsert hv hew.1 hew.2) hew.2
      exact ih h' hnk2 hv2 (fun e' he' => hsw e' (List.mem_cons_of_mem _ he'))

theorem wf_backtrack {scs : List Constraint} {snaps : List PlSet} {m m' : PlMap}
    (h : backtrack scs snaps m = some m') (hnk : NodupKeys m) (hv : VWF m)
    (hsw : ∀ s ∈ snaps, s.Nodup ∧ ∀ p ∈ s, p.cells.Nodup) : NodupKeys m' ∧ VWF m' := by
  unfold backtrack at h
  by_cases hl : scs.length = snaps.length
  · rw [if_pos hl] at h
    refine wf_backtrackAux h hnk hv ?_
    intro e he
    rw [List.mem_reverse] at he
    obtain ⟨e1, e2⟩ := e
    exact hsw e2 (List.of_mem_zip he).2
  · rw [if_neg hl] at h
    exact absurd h (by simp)

theorem solveLoopF_wf {rec : PlMap → SearchRes × PlMap}
    (hrecwf : ∀ m, NodupKeys m → VWF m → NodupKeys (rec m).2 ∧ VWF (rec m).2) :
    ∀ (cands : List Placement) (m : PlMap), NodupKeys m → VWF m →
      NodupKeys (solveLoopF rec cands m).2 ∧ VWF (solveLoopF rec cands m).2 := by
  intro cands
  induction cands with
  | nil => intro m hnk hv; exact ⟨hnk, hv⟩
  | cons p rest ih =>
    intro m hnk hv
    simp only [solveLoopF]
    rcases hp : prune p.satisfied_constraints m with _ | sm
    · exact ⟨hnk, hv⟩
    · obtain ⟨snaps, m2⟩ := sm
      dsimp only
      obtain ⟨hnk2, hv2, hsw⟩ := wf_prune hp hnk hv
      rcases snaps with _ | ⟨s0, srest⟩
      · exact ⟨hnk2, hv2⟩
      · dsimp only
        by_cases hs0 : s0 = []
        · rw [if_pos hs0]
          exact ⟨hnk2, hv2⟩
        · rw [if_neg hs0]
          rcases hrecm : rec m2 with ⟨res, m3⟩
          have hwf3 : NodupKeys m3 ∧ VWF m3 := by
            have hh := hrecwf m2 hnk2 hv2
            rw [hrecm] at hh
            exact hh
          cases res with
          | found sol => exact hwf3
          | err => exact hwf3
          | fuelOut => exact hwf3
          | nosol =>
            dsimp only
            rcases hb : backtrack p.satisfied_constraints (s0 :: srest) m3 with _ | m4
            · exact hwf3
            · obtain ⟨hnk4, hv4⟩ := wf_backtrack hb hwf3.1 hwf3.2 hsw
              exact ih m4 hnk4 hv4

theorem solve_wf : ∀ (n : Nat) (m : PlMap), NodupKeys m → VWF m →
    NodupKeys (solve n m).2 ∧ VWF (solve n m).2 := by
  intro n
  induction n with
  | zero => intro m hnk hv; exact ⟨hnk, hv⟩
  | succ n ih =>
    intro m hnk hv
    simp only [solve]
    by_cases hm : m = []
    · rw [if_pos hm]; exact ⟨hnk, hv⟩
    · rw [if_neg hm]
      rcases hc : chooseMin m with _ | k
      · exact ⟨hnk, hv⟩
      · dsimp only
        rcases hl : mlookup m k with _ | cands
        · exact ⟨hnk, hv⟩
        · dsimp only
          by_cases hcs : cands = []
          · rw [if_pos hcs]; exact ⟨hnk, hv⟩
          · rw [if_neg hcs]
            exact solveLoopF_wf ih cands m hnk hv

theorem solveLoopF_nosol_restore {rec : PlMap → SearchRes × PlMap}
    (hrecwf : ∀ m, NodupKeys m → VWF m → NodupKeys (rec m).2 ∧ VWF (rec m).2)
    (hrec : ∀ m m', MInv m → rec m = (SearchRes.nosol, m') → MEqv m' m) :
    ∀ (cands : List Placement) (m m' : PlMap), MInv m → (∀ q ∈ cands, InMap m q) →
      solveLoopF rec cands m = (SearchRes.nosol, m') → MEqv m' m := by
  intro cands
  induction cands with
  | nil =>
    intro m m' hinv hq h
    simp only [solveLoopF] at h
    obtain ⟨_, h2⟩ := Prod.mk.inj h
    rw [← h2]
    exact MEqv_refl m
  | cons p rest ih =>
    intro m m' hinv hq h
    have hPin : InMap m p := hq p (List.mem_cons_self p rest)
    have hnd := satisfied_constraints_nodup (hPin.cells_nodup hinv.2.1)
    have hpres := hPin.keys_present hinv.2.2.2
    simp only [solveLoopF] at h
    rcases hp : prune p.satisfied_constraints m with _ | sm
    · rw [hp] at h
      dsimp only at h
      exact absurd (Prod.mk.inj h).1 (by simp)
    · obtain ⟨snaps, m2⟩ := sm
      rw [hp] at h
      dsimp only at h
      obtain ⟨snaps0, m20, hp0, hchar, hinv2x⟩ := prune_spec hinv hnd hpres
      rw [hp] at hp0
      obtain ⟨hsn, hmn⟩ := Prod.mk.inj (Option.some.inj hp0)
      have hinv2 : MInv m2 := by rw [hmn]; exact hinv2x
      rcases snaps with _ | ⟨s0, srest⟩
      · dsimp only at h
        exact absurd (Prod.mk.inj h).1 (by simp)
      · dsimp only at h
        by_cases hs0 : s0 = []
        · rw [if_pos hs0] at h
          exact absurd (Prod.mk.inj h).1 (by simp)
        · rw [if_neg hs0] at h
          rcases hrecm : rec m2 with ⟨res, m3⟩
          rw [hrecm] at h
          cases res with
          | found sol =>
            dsimp only at h
            exact absurd (Prod.mk.inj h).1 (by simp)
          | err =>
            dsimp only at h
            exact absurd (Prod.mk.inj h).1 (by simp)
          | fuelOut =>
            dsimp only at h
            exact absurd (Prod.mk.inj h).1 (by simp)
          | nosol =>
            dsimp only at h
            have heq3 : MEqv m3 m2 := hrec m2 m3 hinv2 hrecm
            have hwf3 : NodupKeys m3 ∧ VWF m3 := by
              have hh := hrecwf m2 hinv2.1 hinv2.2.1
              rw [hrecm] at hh
              exact hh
            rcases hb : backtrack p.satisfied_constraints (s0 :: srest) m3 with _ | m4
            · rw [hb] at h
              dsimp only at h
              exact absurd (Prod.mk.inj h).1 (by simp)
            · rw [hb] at h
              dsimp only at h
              obtain ⟨m4', hb', heq4, hnk4, hv4⟩ :=
                prune_backtrack hinv hnd hp m3 heq3 hwf3.1 hwf3.2
              rw [hb] at hb'
              have hm4 : m4 = m4' := Option.some.inj hb'
              subst hm4
              have hinv4 : MInv m4 := MInv_transfer hinv heq4 hnk4 hv4
              have hq4 : ∀ q ∈ rest, InMap m4 q := by
                intro q hqr
                obtain ⟨c, hc⟩ := (hq q (List.mem_cons_of_mem _ hqr)).to_lookupHas hinv.1
                exact InMap.of_lookupHas ((lookupHas_congr heq4 c q).mpr hc)
              exact MEqv_trans (ih m4 m' hinv4 hq4 h) heq4

theorem solve_nosol_restore : ∀ (n : Nat) (m m' : PlMap), MInv m →
    solve n m = (SearchRes.nosol, m') → MEqv m' m := by
  intro n
  induction n with
  | zero =>
    intro m m' _ h
    simp only [solve] at h
    exact absurd (Prod.mk.inj h).1 (by simp)
  | succ n ih =>
    intro m m' hinv h
    simp only [solve] at h
    by_cases hm : m = []
    · rw [if_pos hm] at h
      exact absurd (Prod.mk.inj h).1 (by simp)
    · rw [if_neg hm] at h
      rcases hc : chooseMin m with _ | k
      · rw [hc] at h
        dsimp only at h
        exact absurd (Prod.mk.inj h).1 (by simp)
      · rw [hc] at h
        dsimp only at h
        rcases hl : mlookup m k with _ | cands
        · rw [hl] at h
          dsimp only at h
          exact absurd (Prod.mk.inj h).1 (by simp)
        · rw [hl] at h
          dsimp only at h
          by_cases hcs : cands = []
          · rw [if_pos hcs] at h
            obtain ⟨_, h2⟩ := Prod.mk.inj h
            rw [← h2]
            exact MEqv_refl m
          · rw [if_neg hcs] at h
            have hq : ∀ q ∈ cands, InMap m q :=
              fun q hq' => ⟨(k, cands), mlookup_eq_some_mem hl, hq'⟩
            exact solveLoopF_nosol_restore (solve_wf n) ih cands m m' hinv hq h

/-- C8: Failure atomicity of the search — whenever the recursive `solve`
call returns failure (`None`) on a dict satisfying the consistency
invariant (as every dict reached during the search does), the
`constraint_to_placements` mapping it operated on is equal, as a Python
dict of sets, to its state when the call was entered: every backtrack
restored the pre-prune state, so an unsuccessful search leaves no net
mutation. -/
theorem C8_solve_failure_restores (fuel : Nat) (m m' : PlMap)
    (hinv : MInv m) (h : solve fuel m = (SearchRes.nosol, m')) : MEqv m' m :=
  solve_nosol_restore fuel m m' hinv h

/-- A dict with one constraint and no candidates: the search fails on it
immediately. -/
def sampleFailMap : PlMap := [(Constraint.cell ⟨0, 0⟩, [])]

theorem C8_solve_failure_restores_witness :
    MInv sampleFailMap ∧ solve 1 sampleFailMap = (SearchRes.nosol, sampleFailMap) ∧
      MEqv sampleFailMap sampleFailMap :=
  ⟨by decide, by decide,
    C8_solve_failure_restores 1 sampleFailMap sampleFailMap (by decide) (by decide)⟩

/-! ## Soundness of a successful search: every present constraint is
satisfied by exactly one returned placement -/

theorem prune_success_char {ks : List Constraint} {m m2 : PlMap} {snaps : List PlSet}
    (hinv : MInv m) (hnd : ks.Nodup) (hpres : ∀ k ∈ ks, (mlookup m k).isSome)
    (hp : prune ks m = some (snaps, m2)) :
    (∀ c, mlookup m2 c = if c ∈ ks then none
      else (mlookup m c).map (fun s => s.filter (fun q => !(hitsB ks q)))) ∧ MInv m2 := by
  obtain ⟨snaps0, m20, hp0, hchar, hinv2⟩ := prune_spec hinv hnd hpres
  rw [hp] at hp0
  obtain ⟨_, hmn⟩ := Prod.mk.inj (Option.some.inj hp0)
  rw [hmn]
  exact ⟨hchar, hinv2⟩

/-- The conclusions of search soundness, relative to the entry dict. -/
def SoundOut (m : PlMap) (sol : List Placement) : Prop :=
  (∀ c, (mlookup m c).isSome →
    sol.countP (fun q => decide (c ∈ q.satisfied_constraints)) = 1) ∧
  (∀ q ∈ sol, ∀ c ∈ q.satisfied_constraints, (mlookup m c).isSome) ∧
  (∀ q ∈ sol, InMap m q)

theorem SoundOut_transfer {m m' : PlMap} {sol : List Placement}
    (h : SoundOut m' sol) (heq : MEqv m' m) (hnk' : NodupKeys m') : SoundOut m sol := by
  obtain ⟨h1, h2, h3⟩ := h
  refine ⟨?_, ?_, ?_⟩
  · intro c hc
    exact h1 c (((heq c).isSome_iff).mpr hc)
  · intro q hq c hc
    exact ((heq c).isSome_iff).mp (h2 q hq c hc)
  · intro q hq
    obtain ⟨c, hch⟩ := (h3 q hq).to_lookupHas hnk'
    exact InMap.of_lookupHas ((lookupHas_congr heq c q).mp hch)

theorem solveLoopF_sound {rec : PlMap → SearchRes × PlMap}
    (hrecwf : ∀ m, NodupKeys m → VWF m → NodupKeys (rec m).2 ∧ VWF (rec m).2)
    (hrecrestore : ∀ m m', MInv m → rec m = (SearchRes.nosol, m') → MEqv m' m)
    (hrecsound : ∀ m sol m', MInv m → rec m = (SearchRes.found sol, m') → SoundOut m sol) :
    ∀ (cands : List Placement) (m : PlMap) (sol : List Placement) (m' : PlMap),
      MInv m → (∀ q ∈ cands, InMap m q) →
      solveLoopF rec cands m = (SearchRes.found sol, m') → SoundOut m sol := by
  intro cands
  induction cands with
  | nil =>
    intro m sol m' hinv hq h
    simp only [solveLoopF] at h
    exact absurd (Prod.mk.inj h).1 (by simp)
  | cons p rest ih =>
    intro m sol m' hinv hq h
    have hPin : InMap m p := hq p (List.mem_cons_self p rest)
    have hnd := satisfied_constraints_nodup (hPin.cells_nodup hinv.2.1)
    have hpres := hPin.keys_present hinv.2.2.2
    simp only [solveLoopF] at h
    rcases hp : prune p.satisfied_constraints m with _ | sm
    · rw [hp] at h
      dsimp only at h
      exact absurd (Prod.mk.inj h).1 (by simp)
    · obtain ⟨snaps, m2⟩ := sm
      rw [hp] at h
      dsimp only at h
      obtain ⟨hchar, hinv2⟩ := prune_success_char hinv hnd hpres hp
      rcases snaps with _ | ⟨s0, srest⟩
      · dsimp only at h
        exact absurd (Prod.mk.inj h).1 (by simp)
      · dsimp only at h
        by_cases hs0 : s0 = []
        · rw [if_pos hs0] at h
          exact absurd (Prod.mk.inj h).1 (by simp)
        · rw [if_neg hs0] at h
          rcases hrecm : rec m2 with ⟨res, m3⟩
          rw [hrecm] at h
          cases res with
          | err =>
            dsimp only at h
            exact absurd (Prod.mk.inj h).1 (by simp)
          | fuelOut =>
            dsimp only at h
            exact absurd (Prod.mk.inj h).1 (by simp)
          | found sol' =>
            dsimp only at h
            obtain ⟨h1, h2⟩ := Prod.mk.inj h
            have hsol : sol = p :: sol' := (SearchRes.found.inj h1).symm
            subst hsol
            obtain ⟨ha, hb, hc⟩ := hrecsound m2 sol' m3 hinv2 hrecm
            have hkeys2 : ∀ c, (mlookup m2 c).isSome →
                (c ∉ p.satisfied_constraints ∧ (mlookup m c).isSome) := by
              intro c hcs
              rw [hchar c] at hcs
              by_cases hcp : c ∈ p.satisfied_constraints
              · rw [if_pos hcp] at hcs
                exact absurd hcs (by simp)
              · rw [if_neg hcp] at hcs
                rcases ho : mlookup m c with _ | t
                · rw [ho] at hcs
                  exact absurd hcs (by simp)
                · exact ⟨hcp, rfl⟩
            refine ⟨?_, ?_, ?_⟩
            · intro c hcsome
              rw [List.countP_cons]
              by_cases hcp : c ∈ p.satisfied_constraints
              · have hz : sol'.countP (fun q => decide (c ∈ q.satisfied_constraints)) = 0 := by
                  rw [List.countP_eq_zero]
                  intro q hqs
                  simp only [decide_eq_true_eq]
                  intro hcq
                  have := (hkeys2 c (hb q hqs c hcq)).1
                  exact this hcp
                simp [hz, hcp]
              · have hsome2 : (mlookup m2 c).isSome := by
                  rw [hchar c, if_neg hcp]
                  rcases ho : mlookup m c with _ | t
                  · rw [ho] at hcsome
                    exact absurd hcsome (by simp)
                  · rfl
                have hone := ha c hsome2
                simp [hone, hcp]
            · intro q hqmem c hcq
              rcases List.mem_cons.mp hqmem with hq1 | hq1
              · subst hq1
                exact hpres c hcq
              · exact (hkeys2 c (hb q hq1 c hcq)).2
            · intro q hqmem
              rcases List.mem_cons.mp hqmem with hq1 | hq1
              · subst hq1
                exact hPin
              · obtain ⟨cq, hcq⟩ := (hc q hq1).to_lookupHas hinv2.1
                obtain ⟨t, ht, hqt⟩ := hcq
                rw [hchar cq] at ht
                by_cases hcp : cq ∈ p.satisfied_constraints
                · rw [if_pos hcp] at ht
                  exact absurd ht (by simp)
                · rw [if_neg hcp] at ht
                  rcases ho : mlookup m cq with _ | u
                  · rw [ho] at ht
                    exact absurd ht (by simp)
                  · rw [ho] at ht
                    have hqf : q ∈ u.filter (fun q => !(hitsB p.satisfied_constraints q)) := by
                      have h5 := Option.some.inj ht
                      rw [← h5] at hqt
                      exact hqt
                    exact InMap.of_lookupHas ⟨u, ho, (List.mem_filter.mp hqf).1⟩
          | nosol =>
            dsimp only at h
            have heq3 : MEqv m3 m2 := hrecrestore m2 m3 hinv2 hrecm
            have hwf3 : NodupKeys m3 ∧ VWF m3 := by
              have hh := hrecwf m2 hinv2.1 hinv2.2.1
              rw [hrecm] at hh
              exact hh
            rcases hb : backtrack p.satisfied_constraints (s0 :: srest) m3 with _ | m4
            · rw [hb] at h
              dsimp only at h
              exact absurd (Prod.mk.inj h).1 (by simp)
            · rw [hb] at h
              dsimp only at h
              obtain ⟨m4', hb', heq4, hnk4, hv4⟩ :=
                prune_backtrack hinv hnd hp m3 heq3 hwf3.1 hwf3.2
              rw [hb] at hb'
              have hm4 : m4 = m4' := Option.some.inj hb'
              subst hm4
              have hinv4 : MInv m4 := MInv_transfer hinv heq4 hnk4 hv4
              have hq4 : ∀ q ∈ rest, InMap m4 q := by
                intro q hqr
                obtain ⟨c, hch⟩ := (hq q (List.mem_cons_of_mem _ hqr)).to_lookupHas hinv.1
                exact InMap.of_lookupHas ((lookupHas_congr heq4 c q).mpr hch)
              exact SoundOut_transfer (ih m4 sol m' hinv4 hq4 h) heq4 hinv4.1

theorem solve_sound : ∀ (n : Nat) (m : PlMap) (sol : List Placement) (m' : PlMap),
    MInv m → solve n m = (SearchRes.found sol, m') → SoundOut m sol := by
  intro n
  induction n with
  | zero =>
    intro m sol m' _ h
    simp only [solve] at h
    exact absurd (Prod.mk.inj h).1 (by simp)
  | succ n ih =>
    intro m sol m' hinv h
    simp only [solve] at h
    by_cases hm : m = []
    · rw [if_pos hm] at h
      obtain ⟨h1, _⟩ := Prod.mk.inj h
      have hsol : sol = [] := (SearchRes.found.inj h1).symm
      subst hsol
      subst hm
      refine ⟨?_, by simp, by simp⟩
      intro c hc
      simp [mlookup] at hc
    · rw [if_neg hm] at h
      rcases hc : chooseMin m with _ | k
      · rw [hc] at h
        dsimp only at h
        exact absurd (Prod.mk.inj h).1 (by simp)
      · rw [hc] at h
        dsimp only at h
        rcases hl : mlookup m k with _ | cands
        · rw [hl] at h
          dsimp only at h
          exact absurd (Prod.mk.inj h).1 (by simp)
        · rw [hl] at h
          dsimp only at h
          by_cases hcs : cands = []
          · rw [if_pos hcs] at h
            exact absurd (Prod.mk.inj h).1 (by simp)
          · rw [if_neg hcs] at h
            have hq : ∀ q ∈ cands, InMap m q :=
              fun q hq' => ⟨(k, cands), mlookup_eq_some_mem hl, hq'⟩
            exact solveLoopF_sound (solve_wf n) (solve_nosol_restore n) ih
              cands m sol m' hinv hq h

/-! ## Geometry claims -/

theorem map4_id {f : Edge → Edge} (hf : ∀ e, f (f (f (f e))) = e) (l : List Edge) :
    (((l.map f).map f).map f).map f = l := by
  induction l with
  | nil => rfl
  | cons e es ih =>
    simp only [List.map_cons, hf e, List.cons.injEq]
    exact ⟨trivial, ih⟩

theorem map2_id {f : Edge → Edge} (hf : ∀ e, f (f e) = e) (l : List Edge) :
    (l.map f).map f = l := by
  induction l with
  | nil => rfl
  | cons e es ih =>
    simp only [List.map_cons, hf e, List.cons.injEq]
    exact ⟨trivial, ih⟩

/-- C4: Transform closure — for every piece (in particular every piece of
the fixed catalog, and any piece whose edges use the four direction
letters), applying `rotate_90deg_counterclockwise` four times returns a
piece with the original edge sequence, and applying `mirror_vertically`
twice returns a piece with the original edge sequence. -/
theorem C4_transform_closure (piece : Piece) :
    (rotate_90deg_counterclockwise (rotate_90deg_counterclockwise
      (rotate_90deg_counterclockwise (rotate_90deg_counterclockwise piece)))).edges =
        piece.edges ∧
    (mirror_vertically (mirror_vertically piece)).edges = piece.edges := by
  constructor
  · exact map4_id (fun e => by rcases e with ⟨d, n⟩; cases d <;> rfl) piece.edges
  · exact map2_id (fun e => by rcases e with ⟨d, n⟩; cases d <;> rfl) piece.edges

/-- C5: Orientation cardinality — for every piece of the catalog, the
orientation set generated by the module-level loop (the 8 rotation/mirror
images deduplicated by structural equality of the edge sequence) has
cardinality exactly 1, 2, 4 or 8, and never exceeds 8.  (For this catalog
the cardinalities are 8 for nine pieces and 4 for `Tetr I`.) -/
theorem C5_orientation_cardinality :
    ∀ po ∈ ORIENTATIONS,
      (po.2.length = 1 ∨ po.2.length = 2 ∨ po.2.length = 4 ∨ po.2.length = 8) ∧
      po.2.length ≤ 8 := by decide

theorem C5_orientation_cardinality_witness :
    ("Tetr I", orientationSet ⟨"Tetr I", [e1 .R, e1 .R, e1 .R], "#63A088"⟩) ∈ ORIENTATIONS ∧
      ((("Tetr I", orientationSet ⟨"Tetr I", [e1 .R, e1 .R, e1 .R], "#63A088"⟩) :
          String × List Piece).2.length = 1 ∨
        (("Tetr I", orientationSet ⟨"Tetr I", [e1 .R, e1 .R, e1 .R], "#63A088"⟩) :
          String × List Piece).2.length = 2 ∨
        (("Tetr I", orientationSet ⟨"Tetr I", [e1 .R, e1 .R, e1 .R], "#63A088"⟩) :
          String × List Piece).2.length = 4 ∨
        (("Tetr I", orientationSet ⟨"Tetr I", [e1 .R, e1 .R, e1 .R], "#63A088"⟩) :
          String × List Piece).2.length = 8) ∧
      (("Tetr I", orientationSet ⟨"Tetr I", [e1 .R, e1 .R, e1 .R], "#63A088"⟩) :
        String × List Piece).2.length ≤ 8 :=
  ⟨by decide, C5_orientation_cardinality _ (by decide)⟩

/-! ## Structure of the placement universe -/

theorem mem_insertCell {x c : Cell} : ∀ {l : List Cell}, x ∈ insertCell c l ↔ x = c ∨ x ∈ l := by
  intro l
  induction l with
  | nil => simp [insertCell]
  | cons d ds ih =>
    simp only [insertCell]
    by_cases h : cellLeB c d
    · rw [if_pos h]
      exact List.mem_cons
    · rw [if_neg h]
      rw [List.mem_cons, ih, List.mem_cons]
      tauto

theorem length_insertCell (c : Cell) (l : List Cell) :
    (insertCell c l).length = l.length + 1 := by
  induction l with
  | nil => rfl
  | cons d ds ih =>
    by_cases h : cellLeB c d
    · simp [insertCell, h]
    · simp [insertCell, h, ih]

theorem nodup_insertCell {c : Cell} {l : List Cell} (hc : c ∉ l) (hl : l.Nodup) :
    (insertCell c l).Nodup := by
  induction l with
  | nil => simp [insertCell]
  | cons d ds ih =>
    obtain ⟨hd, hds⟩ := List.nodup_cons.mp hl
    by_cases h : cellLeB c d
    · simp only [insertCell, h, if_true]
      exact List.nodup_cons.mpr ⟨hc, hl⟩
    · simp only [insertCell, h, if_false]
      refine List.nodup_cons.mpr ⟨?_, ih (fun hh => hc (List.mem_cons_of_mem _ hh)) hds⟩
      rw [mem_insertCell]
      rintro (rfl | hh)
      · exact hc (List.mem_cons_self _ _)
      · exact hd hh

theorem mem_sortCells {x : Cell} {l : List Cell} : x ∈ sortCells l ↔ x ∈ l := by
  induction l with
  | nil => simp [sortCells]
  | cons c cs ih =>
    show x ∈ insertCell c (sortCells cs) ↔ _
    rw [mem_insertCell, ih, List.mem_cons]

theorem length_sortCells (l : List Cell) : (sortCells l).length = l.length := by
  induction l with
  | nil => rfl
  | cons c cs ih =>
    show (insertCell c (sortCells cs)).length = _
    rw [length_insertCell, ih]
    rfl

theorem nodup_sortCells {l : List Cell} (h : l.Nodup) : (sortCells l).Nodup := by
  induction l with
  | nil => simp [sortCells]
  | cons c cs ih =>
    obtain ⟨hc, hcs⟩ := List.nodup_cons.mp h
    show (insertCell c (sortCells cs)).Nodup
    exact nodup_insertCell (fun hh => hc (mem_sortCells.mp hh)) (ih hcs)

theorem compute_placement_eq {cell : Cell} {piece : Piece} {pl : Placement}
    (h : compute_placement cell piece = some pl) :
    pl.piece = piece ∧ pl.cells = sortCells (walkCells cell piece.edges).dedup ∧
    ∀ c ∈ walkCells cell piece.edges, validCell c := by
  unfold compute_placement at h
  by_cases hv : (walkCells cell piece.edges).all validCell
  · rw [if_pos hv] at h
    have hpl := (Option.some.inj h).symm
    subst hpl
    exact ⟨rfl, rfl, fun c hc => List.all_eq_true.mp hv c hc⟩
  · rw [if_neg hv] at h
    exact absurd h (by simp)

theorem compute_placement_cells_nodup {cell : Cell} {piece : Piece} {pl : Placement}
    (h : compute_placement cell piece = some pl) : pl.cells.Nodup := by
  rw [(compute_placement_eq h).2.1]
  exact nodup_sortCells (List.nodup_dedup _)

theorem compute_placement_cells_valid {cell : Cell} {piece : Piece} {pl : Placement}
    (h : compute_placement cell piece = some pl) : ∀ c ∈ pl.cells, validCell c := by
  intro c hc
  obtain ⟨_, hcells, hvalid⟩ := compute_placement_eq h
  rw [hcells] at hc
  exact hvalid c (List.mem_dedup.mp (mem_sortCells.mp hc))

theorem mem_PLACEMENTS_gen_iff {p : Placement} :
    p ∈ PLACEMENTS_gen ↔ ∃ cell ∈ allCells, ∃ po ∈ ORIENTATIONS, ∃ orient ∈ po.2,
      compute_placement cell orient = some p := by
  unfold PLACEMENTS_gen
  simp [List.mem_flatMap, List.mem_filterMap]

theorem mem_PLACEMENTS_iff {p : Placement} : p ∈ PLACEMENTS ↔ p ∈ PLACEMENTS_gen := by
  unfold PLACEMENTS
  exact List.mem_dedup

theorem mem_ORIENTATIONS {po : String × List Piece} (h : po ∈ ORIENTATIONS) :
    ∃ pc ∈ PIECES, po.1 = pc.name ∧ po.2 = orientationSet pc := by
  unfold ORIENTATIONS at h
  obtain ⟨pc, hpc, hpo⟩ := List.mem_map.mp h
  refine ⟨pc, hpc, ?_, ?_⟩ <;> rw [← hpo]

theorem orientationSet_mem {p q : Piece} (h : q ∈ orientationSet p) :
    q.name = p.name ∧ q.edges.length = p.edges.length := by
  have hrn : ∀ r : Piece, (rotate_90deg_counterclockwise r).name = r.name := fun _ => rfl
  have hmn : ∀ r : Piece, (mirror_vertically r).name = r.name := fun _ => rfl
  have hrl : ∀ r : Piece, (rotate_90deg_counterclockwise r).edges.length = r.edges.length :=
    fun r => List.length_map r.edges _
  have hml : ∀ r : Piece, (mirror_vertically r).edges.length = r.edges.length :=
    fun r => List.length_map r.edges _
  unfold orientationSet at h
  rw [List.mem_dedup] at h
  simp only [List.mem_cons, List.not_mem_nil, or_false] at h
  rcases h with rfl | rfl | rfl | rfl | rfl | rfl | rfl | rfl | rfl <;>
    exact ⟨by simp only [hrn, hmn], by simp only [hrl, hml]⟩

theorem length_walkCells : ∀ (es : List Edge) (c : Cell),
    (walkCells c es).length = es.length + 1 := by
  intro es
  induction es with
  | nil => intro c; rfl
  | cons e es ih =>
    intro c
    obtain ⟨dir, steps⟩ := e
    cases dir <;> simp [walkCells, ih]

/-- Translating the anchor translates every visited cell. -/
def shiftCell (d c : Cell) : Cell := ⟨c.row + d.row, c.col + d.col⟩

theorem walkCells_shift (d : Cell) : ∀ (es : List Edge) (c : Cell),
    walkCells (shiftCell d c) es = (walkCells c es).map (shiftCell d) := by
  intro es
  induction es with
  | nil => intro c; rfl
  | cons e es ih =>
    intro c
    obtain ⟨dir, steps⟩ := e
    have key : ∀ a b : Cell, a = shiftCell d b →
        shiftCell d c :: walkCells a es = (c :: walkCells b es).map (shiftCell d) := by
      intro a b hab
      rw [List.map_cons, ← ih b, hab]
    cases dir with
    | U =>
      refine key ⟨(shiftCell d c).row - ↑steps, (shiftCell d c).col⟩
        ⟨c.row - ↑steps, c.col⟩ ?_
      simp only [shiftCell, Cell.mk.injEq]
      constructor <;> first | trivial | omega
    | D =>
      refine key ⟨(shiftCell d c).row + ↑steps, (shiftCell d c).col⟩
        ⟨c.row + ↑steps, c.col⟩ ?_
      simp only [shiftCell, Cell.mk.injEq]
      constructor <;> first | trivial | omega
    | L =>
      refine key ⟨(shiftCell d c).row, (shiftCell d c).col - ↑steps⟩
        ⟨c.row, c.col - ↑steps⟩ ?_
      simp only [shiftCell, Cell.mk.injEq]
      constructor <;> first | trivial | omega
    | R =>
      refine key ⟨(shiftCell d c).row, (shiftCell d c).col + ↑steps⟩
        ⟨c.row, c.col + ↑steps⟩ ?_
      simp only [shiftCell, Cell.mk.injEq]
      constructor <;> first | trivial | omega

theorem walkCells_nodup_of_origin {es : List Edge} (h : (walkCells ⟨0, 0⟩ es).Nodup)
    (c : Cell) : (walkCells c es).Nodup := by
  have hinj : Function.Injective (shiftCell c) := by
    intro a b hab
    obtain ⟨a1, a2⟩ := a
    obtain ⟨b1, b2⟩ := b
    simp only [shiftCell, Cell.mk.injEq] at hab ⊢
    omega
  have hc : shiftCell c ⟨0, 0⟩ = c := by
    cases c
    simp [shiftCell]
  have hw := walkCells_shift c es ⟨0, 0⟩
  rw [hc] at hw
  rw [hw]
  exact List.Nodup.map hinj h

set_option maxHeartbeats 2000000 in
/-- Every orientation of every catalog piece visits pairwise-distinct
offsets when walked from the origin. -/
theorem orientations_walk_nodup :
    ∀ po ∈ ORIENTATIONS, ∀ orient ∈ po.2, (walkCells ⟨0, 0⟩ orient.edges).Nodup := by decide

/-- The seven pentomino names and three tetromino names of the catalog. -/
def PENTO_NAMES : List String :=
  ["Pento L", "Pento T", "Pento P", "Pento N", "Pento V", "Pento U", "Pento Z"]

def TETR_NAMES : List String := ["Tetr I", "Tetr S", "Tetr L"]

theorem pieces_edge_lengths :
    ∀ pc ∈ PIECES,
      (pc.name ∈ PENTO_NAMES → pc.edges.length = 4) ∧
      (pc.name ∈ TETR_NAMES → pc.edges.length = 3) ∧
      (pc.name ∈ PENTO_NAMES ∨ pc.name ∈ TETR_NAMES) := by decide

/-- Structure of any member of the placement universe: it is built by
`compute_placement` from some catalog piece's orientation at some anchor,
and its walk visits distinct cells. -/
theorem placement_structure {p : Placement} (hp : p ∈ PLACEMENTS) :
    ∃ pc ∈ PIECES, ∃ orient ∈ orientationSet pc, ∃ cell : Cell,
      p.piece = orient ∧ orient.name = pc.name ∧ orient.edges.length = pc.edges.length ∧
      p.cells = sortCells (walkCells cell orient.edges).dedup ∧
      (walkCells cell orient.edges).Nodup := by
  obtain ⟨cell, hcell, po, hpo, orient, hor, hcp⟩ :=
    mem_PLACEMENTS_gen_iff.mp (mem_PLACEMENTS_iff.mp hp)
  have hor0 := hor
  obtain ⟨pc, hpc, hname1, hsnd⟩ := mem_ORIENTATIONS hpo
  rw [hsnd] at hor
  obtain ⟨hname, hlen⟩ := orientationSet_mem hor
  obtain ⟨hpiece, hcells, _⟩ := compute_placement_eq hcp
  refine ⟨pc, hpc, orient, hor, cell, hpiece, hname, hlen, hcells, ?_⟩
  exact walkCells_nodup_of_origin (orientations_walk_nodup po hpo orient hor0) cell

/-- C9: every placement of the static universe covers exactly
`edges.length + 1` distinct cells; placements of the seven pentomino
pieces cover 5 cells and placements of the three tetromino pieces cover
4 cells. -/
theorem C9_cell_count_law :
    ∀ p ∈ PLACEMENTS, p.cells.length = p.piece.edges.length + 1 ∧
      (p.piece.name ∈ PENTO_NAMES → p.cells.length = 5) ∧
      (p.piece.name ∈ TETR_NAMES → p.cells.length = 4) := by
  intro p hp
  obtain ⟨pc, hpc, orient, hor, cell, hpiece, hname, hlen, hcells, hnd⟩ :=
    placement_structure hp
  have hcl : p.cells.length = orient.edges.length + 1 := by
    rw [hcells, length_sortCells, List.dedup_eq_self.mpr hnd, length_walkCells]
  obtain ⟨hp5, hp4, _⟩ := pieces_edge_lengths pc hpc
  refine ⟨by rw [hpiece]; exact hcl, ?_, ?_⟩
  · intro hmem
    rw [hpiece, hname] at hmem
    rw [hcl, hlen, hp5 hmem]
  · intro hmem
    rw [hpiece, hname] at hmem
    rw [hcl, hlen, hp4 hmem]

/-- The catalog tetromino I piece and its reversed (LLL) orientation. -/
def tetrI : Piece := ⟨"Tetr I", [e1 .R, e1 .R, e1 .R], "#63A088"⟩

def tetrI_LLL : Piece := ⟨"Tetr I", [e1 .L, e1 .L, e1 .L], "#63A088"⟩

def sampleUniversePlacement : Placement := ⟨tetrI, [⟨2, 0⟩, ⟨2, 1⟩, ⟨2, 2⟩, ⟨2, 3⟩]⟩

def sampleDupPlacement : Placement := ⟨tetrI_LLL, [⟨2, 0⟩, ⟨2, 1⟩, ⟨2, 2⟩, ⟨2, 3⟩]⟩

theorem sampleUniversePlacement_mem : sampleUniversePlacement ∈ PLACEMENTS := by
  refine mem_PLACEMENTS_iff.mpr (mem_PLACEMENTS_gen_iff.mpr
    ⟨⟨2, 0⟩, by decide, ("Tetr I", orientationSet tetrI), by decide, tetrI, by decide, ?_⟩)
  decide

theorem sampleDupPlacement_mem : sampleDupPlacement ∈ PLACEMENTS := by
  refine mem_PLACEMENTS_iff.mpr (mem_PLACEMENTS_gen_iff.mpr
    ⟨⟨2, 3⟩, by decide, ("Tetr I", orientationSet tetrI), by decide, tetrI_LLL, by decide, ?_⟩)
  decide

/-- C6: refuted as stated — the placement universe is deduplicated only by
whole-`Placement` structural equality (piece with its edge tuple, plus
cells), not by the (piece name, cell set) pair. The `Tetr I` row
`[(2,0),(2,1),(2,2),(2,3)]` arises once from the catalog `RRR` edge walk
anchored at `(2,0)` and once from its rotated `LLL` walk anchored at
`(2,3)`: both survive in `PLACEMENTS`, are distinct elements, and carry
the same piece name and the same (sorted, deduplicated) cell list. -/
theorem C6_duplicate_piece_cellset :
    sampleUniversePlacement ∈ PLACEMENTS ∧ sampleDupPlacement ∈ PLACEMENTS ∧
      sampleUniversePlacement ≠ sampleDupPlacement ∧
      sampleUniversePlacement.piece.name = sampleDupPlacement.piece.name ∧
      sampleUniversePlacement.cells = sampleDupPlacement.cells :=
  ⟨sampleUniversePlacement_mem, sampleDupPlacement_mem, by decide, rfl, rfl⟩

/-- C9 witness at a concrete universe member. -/
theorem C9_cell_count_law_witness :
    sampleUniversePlacement ∈ PLACEMENTS ∧
      (sampleUniversePlacement.cells.length = sampleUniversePlacement.piece.edges.length + 1 ∧
        (sampleUniversePlacement.piece.name ∈ PENTO_NAMES →
          sampleUniversePlacement.cells.length = 5) ∧
        (sampleUniversePlacement.piece.name ∈ TETR_NAMES →
          sampleUniversePlacement.cells.length = 4)) :=
  ⟨sampleUniversePlacement_mem,
    C9_cell_count_law sampleUniversePlacement sampleUniversePlacement_mem⟩

/-! ## Structure of the constraint dict built by `solve_x` -/

theorem mem_satisfied_cell (p : Placement) (c : Cell) :
    Constraint.cell c ∈ p.satisfied_constraints ↔ c ∈ p.cells := by
  simp [Placement.satisfied_constraints]

theorem mem_satisfied_piece (p : Placement) (n : String) :
    Constraint.piece n ∈ p.satisfied_constraints ↔ n = p.piece.name := by
  simp [Placement.satisfied_constraints]

theorem mk_mem_allCells (a b : Nat) (ha : a < GRID_ROWS) (hb : b < GRID_COLS) :
    (⟨(a : Int), (b : Int)⟩ : Cell) ∈ allCells := by
  unfold allCells
  refine List.mem_flatMap.mpr ⟨a, List.mem_range.mpr ha, ?_⟩
  refine List.mem_map.mpr ⟨(b : Int), ?_, rfl⟩
  refine List.mem_flatMap.mpr ⟨b, List.mem_range.mpr hb, ?_⟩
  exact List.mem_singleton.mpr rfl

theorem mem_allCells_of_valid {c : Cell} (h : validCell c = true) : c ∈ allCells := by
  obtain ⟨r, co⟩ := c
  have hb : 0 ≤ r ∧ r < (GRID_ROWS : Int) ∧ 0 ≤ co ∧ co < (GRID_COLS : Int) := by
    simp only [validCell, Bool.and_eq_true, decide_eq_true_eq] at h
    exact ⟨h.1.1.1.1.1, h.1.1.1.1.2, h.1.1.1.2, h.1.1.2⟩
  obtain ⟨h1, h2, h3, h4⟩ := hb
  simp only [GRID_ROWS, GRID_COLS, Nat.cast_ofNat] at h2 h4
  have heq : (⟨r, co⟩ : Cell) = ⟨(r.toNat : Int), (co.toNat : Int)⟩ := by
    simp only [Cell.mk.injEq]
    constructor <;> omega
  rw [heq]
  refine mk_mem_allCells r.toNat co.toNat ?_ ?_
  · show r.toNat < 8
    omega
  · show co.toNat < 7
    omega

theorem mem_validCells {c : Cell} : c ∈ validCells ↔ validCell c = true := by
  constructor
  · intro h
    exact (List.mem_filter.mp h).2
  · intro h
    exact List.mem_filter.mpr ⟨mem_allCells_of_valid h, h⟩

/-- The piece-phase result of `buildMap`: one entry per catalog piece, in
catalog order, holding the placements of that piece name. -/
def pieceMap (ps : List Placement) : PlMap :=
  PIECES.map (fun pc =>
    (Constraint.piece pc.name, ps.filter (fun p => decide (p.piece.name = pc.name))))

theorem pieceFold_eq (f : Piece → PlSet) :
    ∀ (l : List Piece) (m : PlMap),
      l.foldl (fun m pc => minsert m (Constraint.piece pc.name) (f pc)) m
        = m ++ l.map (fun pc => (Constraint.piece pc.name, f pc)) := by
  intro l
  induction l with
  | nil => intro m; simp
  | cons pc l ih =>
    intro m
    rw [List.foldl_cons, ih, List.map_cons]
    show minsert m (Constraint.piece pc.name) (f pc) ++ _ = _
    rw [minsert]
    simp

/-- One iteration of the cell loop of `buildMap`. -/
def cellStep (p : Placement) (m : PlMap) (c : Cell) : PlMap :=
  match mlookup m (Constraint.cell c) with
  | none => minsert m (Constraint.cell c) [p]
  | some s => mupdate m (Constraint.cell c) (psetAdd s p)

/-- The cell phase of `buildMap`. -/
def cellPhase (ps : List Placement) (m : PlMap) : PlMap :=
  ps.foldl (fun m p => p.cells.foldl (cellStep p) m) m

theorem buildMap_eq (ps : List Placement) :
    buildMap ps = cellPhase ps (pieceMap ps) := by
  show cellPhase ps (PIECES.foldl (fun m pc =>
      minsert m (Constraint.piece pc.name)
        (ps.filter (fun p => decide (p.piece.name = pc.name)))) []) = _
  rw [pieceFold_eq]
  rfl

theorem keys_cellStep (p : Placement) (m : PlMap) (c : Cell) :
    (cellStep p m c).map Prod.fst =
      if Constraint.cell c ∈ m.map Prod.fst then m.map Prod.fst
      else m.map Prod.fst ++ [Constraint.cell c] := by
  unfold cellStep
  cases h : mlookup m (Constraint.cell c) with
  | none =>
    dsimp only
    rw [keys_minsert, if_neg]
    intro hmem
    have hs := (mlookup_isSome_iff_mem_keys m _).mpr hmem
    rw [h] at hs
    simp at hs
  | some s =>
    dsimp only
    rw [keys_mupdate, if_pos]
    exact (mlookup_isSome_iff_mem_keys m _).mp (by rw [h]; rfl)

theorem mlookup_cellStep_ne (p : Placement) (m : PlMap) (c : Cell) {c' : Constraint}
    (h : c' ≠ Constraint.cell c) :
    mlookup (cellStep p m c) c' = mlookup m c' := by
  unfold cellStep
  cases hms : mlookup m (Constraint.cell c) with
  | none =>
    dsimp only
    rw [mlookup_minsert]
    cases hc2 : mlookup m c' with
    | some s2 => rfl
    | none =>
      dsimp only
      rw [if_neg (fun hh => h hh.symm)]
  | some s =>
    dsimp only
    exact mlookup_mupdate_ne m _ h

theorem mlookup_cellStep_self (p : Placement) (m : PlMap) (c : Cell) :
    mlookup (cellStep p m c) (Constraint.cell c) =
      some (match mlookup m (Constraint.cell c) with
            | none => [p]
            | some s => psetAdd s p) := by
  unfold cellStep
  cases hms : mlookup m (Constraint.cell c) with
  | none =>
    dsimp only
    rw [mlookup_minsert, hms]
    simp
  | some s =>
    dsimp only
    exact mlookup_mupdate_self m _ (by rw [hms]; rfl)

theorem lookupHas_cellStep (p q : Placement) (m : PlMap) (c : Cell) (c' : Constraint) :
    lookupHas (cellStep p m c) c' q ↔
      lookupHas m c' q ∨ (c' = Constraint.cell c ∧ q = p) := by
  by_cases hc : c' = Constraint.cell c
  · subst hc
    unfold lookupHas
    rw [mlookup_cellStep_self]
    cases hms : mlookup m (Constraint.cell c) with
    | none =>
      dsimp only
      constructor
      · rintro ⟨s, hs, hq⟩
        obtain rfl := Option.some.inj hs
        rw [List.mem_singleton] at hq
        exact Or.inr ⟨rfl, hq⟩
      · rintro (⟨s, hs, hq⟩ | ⟨_, rfl⟩)
        · cases hs
        · exact ⟨[q], rfl, by simp⟩
    | some s =>
      dsimp only
      constructor
      · rintro ⟨s2, hs2, hq⟩
        obtain rfl := Option.some.inj hs2
        rw [mem_psetAdd] at hq
        rcases hq with rfl | hq
        · exact Or.inr ⟨rfl, rfl⟩
        · exact Or.inl ⟨s, rfl, hq⟩
      · rintro (⟨s2, hs2, hq⟩ | ⟨_, rfl⟩)
        · obtain rfl := Option.some.inj hs2
          exact ⟨_, rfl, (mem_psetAdd _ _ _).mpr (Or.inr hq)⟩
        · exact ⟨_, rfl, (mem_psetAdd _ _ _).mpr (Or.inl rfl)⟩
  · unfold lookupHas
    rw [mlookup_cellStep_ne p m c hc]
    constructor
    · exact Or.inl
    · rintro (h | ⟨he, _⟩)
      · exact h
      · exact absurd he hc

theorem cellsFold_lookupHas (p q : Placement) :
    ∀ (cs : List Cell) (m : PlMap) (c' : Constraint),
      lookupHas (cs.foldl (cellStep p) m) c' q ↔
        lookupHas m c' q ∨ ((∃ c ∈ cs, c' = Constraint.cell c) ∧ q = p) := by
  intro cs
  induction cs with
  | nil =>
    intro m c'
    simp [List.foldl_nil]
  | cons c cs ih =>
    intro m c'
    rw [List.foldl_cons, ih, lookupHas_cellStep]
    constructor
    · rintro ((h | ⟨rfl, rfl⟩) | ⟨⟨c0, hc0, rfl⟩, rfl⟩)
      · exact Or.inl h
      · exact Or.inr ⟨⟨c, by simp, rfl⟩, rfl⟩
      · exact Or.inr ⟨⟨c0, by simp [hc0], rfl⟩, rfl⟩
    · rintro (h | ⟨⟨c0, hc0, rfl⟩, rfl⟩)
      · exact Or.inl (Or.inl h)
      · rcases List.mem_cons.mp hc0 with rfl | hin
        · exact Or.inl (Or.inr ⟨rfl, rfl⟩)
        · exact Or.inr ⟨⟨c0, hin, rfl⟩, rfl⟩

theorem cellsFold_keys_mem (p : Placement) :
    ∀ (cs : List Cell) (m : PlMap) (x : Constraint),
      x ∈ (cs.foldl (cellStep p) m).map Prod.fst ↔
        x ∈ m.map Prod.fst ∨ ∃ c ∈ cs, x = Constraint.cell c := by
  intro cs
  induction cs with
  | nil =>
    intro m x
    simp [List.foldl_nil]
  | cons c cs ih =>
    intro m x
    rw [List.foldl_cons, ih, keys_cellStep]
    by_cases hmem : Constraint.cell c ∈ m.map Prod.fst
    · rw [if_pos hmem]
      constructor
      · rintro (h | ⟨c0, hc0, rfl⟩)
        · exact Or.inl h
        · exact Or.inr ⟨c0, by simp [hc0], rfl⟩
      · rintro (h | ⟨c0, hc0, rfl⟩)
        · exact Or.inl h
        · rcases List.mem_cons.mp hc0 with rfl | hin
          · exact Or.inl hmem
          · exact Or.inr ⟨c0, hin, rfl⟩
    · rw [if_neg hmem]
      constructor
      · rintro (h | ⟨c0, hc0, rfl⟩)
        · rcases List.mem_append.mp h with h1 | h1
          · exact Or.inl h1
          · exact Or.inr ⟨c, by simp, List.mem_singleton.mp h1⟩
        · exact Or.inr ⟨c0, by simp [hc0], rfl⟩
      · rintro (h | ⟨c0, hc0, rfl⟩)
        · exact Or.inl (List.mem_append.mpr (Or.inl h))
        · rcases List.mem_cons.mp hc0 with rfl | hin
          · exact Or.inl (List.mem_append.mpr (Or.inr (by simp)))
          · exact Or.inr ⟨c0, hin, rfl⟩

theorem cellsFold_nodupKeys (p : Placement) :
    ∀ (cs : List Cell) (m : PlMap), NodupKeys m → NodupKeys (cs.foldl (cellStep p) m) := by
  intro cs
  induction cs with
  | nil =>
    intro m h
    exact h
  | cons c cs ih =>
    intro m h
    rw [List.foldl_cons]
    refine ih _ ?_
    unfold NodupKeys at h ⊢
    rw [keys_cellStep]
    by_cases hmem : Constraint.cell c ∈ m.map Prod.fst
    · rw [if_pos hmem]
      exact h
    · rw [if_neg hmem]
      simp [List.nodup_append, h, hmem]

theorem buildFold_lookupHas (q : Placement) :
    ∀ (l : List Placement) (m : PlMap) (c' : Constraint),
      lookupHas (l.foldl (fun m p => p.cells.foldl (cellStep p) m) m) c' q ↔
        lookupHas m c' q ∨ ∃ p ∈ l, q = p ∧ ∃ c ∈ p.cells, c' = Constraint.cell c := by
  intro l
  induction l with
  | nil =>
    intro m c'
    simp [List.foldl_nil]
  | cons p l ih =>
    intro m c'
    rw [List.foldl_cons, ih, cellsFold_lookupHas]
    constructor
    · rintro ((h | ⟨⟨c0, hc0, rfl⟩, rfl⟩) | ⟨p0, hp0, rfl, c0, hc0, rfl⟩)
      · exact Or.inl h
      · exact Or.inr ⟨q, by simp, rfl, c0, hc0, rfl⟩
      · exact Or.inr ⟨q, by simp [hp0], rfl, c0, hc0, rfl⟩
    · rintro (h | ⟨p0, hp0, rfl, c0, hc0, rfl⟩)
      · exact Or.inl (Or.inl h)
      · rcases List.mem_cons.mp hp0 with heq | hin
        · subst heq
          exact Or.inl (Or.inr ⟨⟨c0, hc0, rfl⟩, rfl⟩)
        · exact Or.inr ⟨q, hin, rfl, c0, hc0, rfl⟩

theorem buildFold_keys_mem :
    ∀ (l : List Placement) (m : PlMap) (x : Constraint),
      x ∈ (l.foldl (fun m p => p.cells.foldl (cellStep p) m) m).map Prod.fst ↔
        x ∈ m.map Prod.fst ∨ ∃ p ∈ l, ∃ c ∈ p.cells, x = Constraint.cell c := by
  intro l
  induction l with
  | nil =>
    intro m x
    simp [List.foldl_nil]
  | cons p l ih =>
    intro m x
    rw [List.foldl_cons, ih, cellsFold_keys_mem]
    constructor
    · rintro ((h | ⟨c0, hc0, rfl⟩) | ⟨p0, hp0, c0, hc0, rfl⟩)
      · exact Or.inl h
      · exact Or.inr ⟨p, by simp, c0, hc0, rfl⟩
      · exact Or.inr ⟨p0, by simp [hp0], c0, hc0, rfl⟩
    · rintro (h | ⟨p0, hp0, c0, hc0, rfl⟩)
      · exact Or.inl (Or.inl h)
      · rcases List.mem_cons.mp hp0 with rfl | hin
        · exact Or.inl (Or.inr ⟨c0, hc0, rfl⟩)
        · exact Or.inr ⟨p0, hin, c0, hc0, rfl⟩

theorem buildFold_nodupKeys :
    ∀ (l : List Placement) (m : PlMap), NodupKeys m →
      NodupKeys (l.foldl (fun m p => p.cells.foldl (cellStep p) m) m) := by
  intro l
  induction l with
  | nil =>
    intro m h
    exact h
  | cons p l ih =>
    intro m h
    rw [List.foldl_cons]
    exact ih _ (cellsFold_nodupKeys p _ _ h)

theorem keys_pieceMap (ps : List Placement) :
    (pieceMap ps).map Prod.fst = PIECES.map (fun pc => Constraint.piece pc.name) := by
  unfold pieceMap
  rw [List.map_map]
  rfl

theorem nodupKeys_pieceMap (ps : List Placement) : NodupKeys (pieceMap ps) := by
  unfold NodupKeys
  rw [keys_pieceMap]
  decide

theorem mlookup_pieceMap (ps : List Placement) (c : Constraint) :
    mlookup (pieceMap ps) c =
      (PIECES.find? (fun pc => decide (Constraint.piece pc.name = c))).map
        (fun pc => ps.filter (fun p => decide (p.piece.name = pc.name))) := by
  unfold pieceMap
  generalize PIECES = l
  induction l with
  | nil => rfl
  | cons pc l ih =>
    rw [List.map_cons, mlookup_cons]
    by_cases h : Constraint.piece pc.name = c
    · rw [if_pos h]
      have hfind : List.find? (fun pc0 => decide (Constraint.piece pc0.name = c)) (pc :: l)
          = some pc := List.find?_cons_of_pos _ (decide_eq_true h)
      rw [hfind]
      rfl
    · rw [if_neg h, ih, List.find?_cons_of_neg]
      simpa using h

theorem lookupHas_pieceMap (ps : List Placement) (q : Placement) (c : Constraint) :
    lookupHas (pieceMap ps) c q ↔
      ∃ pc ∈ PIECES, c = Constraint.piece pc.name ∧ q ∈ ps ∧ q.piece.name = pc.name := by
  unfold lookupHas
  rw [mlookup_pieceMap]
  constructor
  · rintro ⟨s, hs, hq⟩
    cases hf : PIECES.find? (fun pc => decide (Constraint.piece pc.name = c)) with
    | none =>
      rw [hf] at hs
      cases hs
    | some pc0 =>
      rw [hf] at hs
      obtain rfl := Option.some.inj hs
      have hkey : Constraint.piece pc0.name = c := by
        have := List.find?_some hf
        simpa using this
      have hq2 := List.mem_filter.mp hq
      exact ⟨pc0, List.mem_of_find?_eq_some hf, hkey.symm, hq2.1, by simpa using hq2.2⟩
  · rintro ⟨pc, hpc, rfl, hq, hname⟩
    have hex : (PIECES.find? (fun pc0 => decide (Constraint.piece pc0.name =
        Constraint.piece pc.name))).isSome := by
      rw [List.find?_isSome]
      exact ⟨pc, hpc, by simp⟩
    cases hf : PIECES.find? (fun pc0 => decide (Constraint.piece pc0.name =
        Constraint.piece pc.name)) with
    | none =>
      rw [hf] at hex
      cases hex
    | some pc1 =>
      have hkey : pc1.name = pc.name := by
        have := List.find?_some hf
        simpa using this
      refine ⟨_, rfl, ?_⟩
      exact List.mem_filter.mpr ⟨hq, by simp [hname, hkey]⟩

/-- Every entry of the dict under construction holds a duplicate-free set
of placements drawn from `ps`, each satisfying the entry's constraint. -/
def EntriesOK (ps : List Placement) (m : PlMap) : Prop :=
  ∀ e ∈ m, e.2.Nodup ∧ ∀ q ∈ e.2, q ∈ ps ∧ e.1 ∈ q.satisfied_constraints ∧ q.cells.Nodup

theorem entriesOK_pieceMap {ps : List Placement} (hnd : ps.Nodup)
    (hcn : ∀ p ∈ ps, p.cells.Nodup) : EntriesOK ps (pieceMap ps) := by
  intro e he
  unfold pieceMap at he
  obtain ⟨pc, hpc, rfl⟩ := List.mem_map.mp he
  refine ⟨hnd.filter _, ?_⟩
  intro q hq
  obtain ⟨hq1, hq2⟩ := List.mem_filter.mp hq
  refine ⟨hq1, ?_, hcn q hq1⟩
  have hqn : q.piece.name = pc.name := by simpa using hq2
  show Constraint.piece pc.name ∈ q.satisfied_constraints
  rw [mem_satisfied_piece]
  exact hqn.symm

theorem entriesOK_cellStep {ps : List Placement} {p : Placement} {m : PlMap} {c : Cell}
    (hp : p ∈ ps) (hc : c ∈ p.cells) (hpn : p.cells.Nodup)
    (h : EntriesOK ps m) : EntriesOK ps (cellStep p m c) := by
  unfold cellStep
  cases hms : mlookup m (Constraint.cell c) with
  | none =>
    dsimp only
    intro e he
    unfold minsert at he
    rcases List.mem_append.mp he with h1 | h1
    · exact h e h1
    · rw [List.mem_singleton] at h1
      subst h1
      refine ⟨List.nodup_singleton _, ?_⟩
      intro q hq
      rw [List.mem_singleton] at hq
      subst hq
      exact ⟨hp, by rw [mem_satisfied_cell]; exact hc, hpn⟩
  | some s =>
    dsimp only
    intro e he
    rcases mem_mupdate e he with h1 | h1
    · exact h e h1
    · subst h1
      have hsm := mlookup_eq_some_mem hms
      obtain ⟨hsnd, hsq⟩ := h _ hsm
      refine ⟨nodup_psetAdd p hsnd, ?_⟩
      intro q hq
      rw [mem_psetAdd] at hq
      rcases hq with rfl | hq
      · exact ⟨hp, by rw [mem_satisfied_cell]; exact hc, hpn⟩
      · have hh := hsq q hq
        exact ⟨hh.1, hh.2.1, hh.2.2⟩

theorem entriesOK_cellsFold {ps : List Placement} {p : Placement} (hp : p ∈ ps)
    (hpn : p.cells.Nodup) :
    ∀ (cs : List Cell), (∀ c ∈ cs, c ∈ p.cells) → ∀ (m : PlMap), EntriesOK ps m →
      EntriesOK ps (cs.foldl (cellStep p) m) := by
  intro cs
  induction cs with
  | nil =>
    intro _ m h
    exact h
  | cons c cs ih =>
    intro hsub m h
    rw [List.foldl_cons]
    exact ih (fun c0 h0 => hsub c0 (by simp [h0])) _
      (entriesOK_cellStep hp (hsub c (by simp)) hpn h)

theorem entriesOK_buildFold {ps : List Placement} :
    ∀ (l : List Placement), (∀ p ∈ l, p ∈ ps ∧ p.cells.Nodup) → ∀ (m : PlMap),
      EntriesOK ps m →
      EntriesOK ps (l.foldl (fun m p => p.cells.foldl (cellStep p) m) m) := by
  intro l
  induction l with
  | nil =>
    intro _ m h
    exact h
  | cons p l ih =>
    intro hl m h
    rw [List.foldl_cons]
    refine ih (fun p0 h0 => hl p0 (by simp [h0])) _ ?_
    have hp := hl p (by simp)
    exact entriesOK_cellsFold hp.1 hp.2 p.cells (fun _ h0 => h0) m h

theorem entriesOK_buildMap {ps : List Placement} (hnd : ps.Nodup)
    (hcn : ∀ p ∈ ps, p.cells.Nodup) : EntriesOK ps (buildMap ps) := by
  rw [buildMap_eq]
  unfold cellPhase
  exact entriesOK_buildFold ps (fun p hp => ⟨hp, hcn p hp⟩) _ (entriesOK_pieceMap hnd hcn)

theorem mem_keys_buildMap (ps : List Placement) (x : Constraint) :
    x ∈ (buildMap ps).map Prod.fst ↔
      (∃ pc ∈ PIECES, x = Constraint.piece pc.name) ∨
        ∃ p ∈ ps, ∃ c ∈ p.cells, x = Constraint.cell c := by
  rw [buildMap_eq]
  unfold cellPhase
  rw [buildFold_keys_mem, keys_pieceMap]
  constructor
  · rintro (h | h)
    · obtain ⟨pc, hpc, hx⟩ := List.mem_map.mp h
      exact Or.inl ⟨pc, hpc, hx.symm⟩
    · exact Or.inr h
  · rintro (⟨pc, hpc, rfl⟩ | h)
    · exact Or.inl (List.mem_map.mpr ⟨pc, hpc, rfl⟩)
    · exact Or.inr h

theorem nodupKeys_buildMap (ps : List Placement) : NodupKeys (buildMap ps) := by
  rw [buildMap_eq]
  unfold cellPhase
  exact buildFold_nodupKeys ps _ (nodupKeys_pieceMap ps)

theorem lookupHas_buildMap (ps : List Placement) (q : Placement) (c' : Constraint) :
    lookupHas (buildMap ps) c' q ↔
      (∃ pc ∈ PIECES, c' = Constraint.piece pc.name ∧ q ∈ ps ∧ q.piece.name = pc.name) ∨
        (q ∈ ps ∧ ∃ c ∈ q.cells, c' = Constraint.cell c) := by
  rw [buildMap_eq]
  unfold cellPhase
  rw [buildFold_lookupHas, lookupHas_pieceMap]
  constructor
  · rintro (h | ⟨p0, hp0, rfl, h⟩)
    · exact Or.inl h
    · exact Or.inr ⟨hp0, h⟩
  · rintro (h | ⟨hq, h⟩)
    · exact Or.inl h
    · exact Or.inr ⟨q, hq, rfl, h⟩

theorem MInv_buildMap {ps : List Placement} (hnd : ps.Nodup)
    (hcn : ∀ p ∈ ps, p.cells.Nodup)
    (hnames : ∀ p ∈ ps, ∃ pc ∈ PIECES, p.piece.name = pc.name) :
    MInv (buildMap ps) := by
  have hE := entriesOK_buildMap hnd hcn
  refine ⟨nodupKeys_buildMap ps, ?_, ?_, ?_⟩
  · intro e he
    obtain ⟨h1, h2⟩ := hE e he
    exact ⟨h1, fun p hp => (h2 p hp).2.2⟩
  · intro e he p hp
    exact ((hE e he).2 p hp).2.1
  · intro e he p hp c hc
    have hps : p ∈ ps := ((hE e he).2 p hp).1
    rw [lookupHas_buildMap]
    cases c with
    | piece n =>
      rw [mem_satisfied_piece] at hc
      obtain ⟨pc, hpc, hpn⟩ := hnames p hps
      exact Or.inl ⟨pc, hpc, by rw [hc, hpn], hps, hpn⟩
    | cell c0 =>
      rw [mem_satisfied_cell] at hc
      exact Or.inr ⟨hps, c0, hc, rfl⟩

theorem InMap_buildMap {ps : List Placement} (hnd : ps.Nodup)
    (hcn : ∀ p ∈ ps, p.cells.Nodup) {q : Placement}
    (h : InMap (buildMap ps) q) : q ∈ ps := by
  obtain ⟨e, he, hq⟩ := h
  exact ((entriesOK_buildMap hnd hcn e he).2 q hq).1

/-- The set of cells covered by at least one placement of `ps`. -/
def coveredF (ps : List Placement) : Finset Cell := (ps.flatMap (fun p => p.cells)).toFinset

theorem mem_coveredF (ps : List Placement) (c : Cell) :
    c ∈ coveredF ps ↔ ∃ p ∈ ps, c ∈ p.cells := by
  unfold coveredF
  rw [List.mem_toFinset, List.mem_flatMap]

theorem buildMap_length (ps : List Placement) :
    (buildMap ps).length = PIECES.length + (coveredF ps).card := by
  have hnk := nodupKeys_buildMap ps
  have h1 : (buildMap ps).length = ((buildMap ps).map Prod.fst).length :=
    (List.length_map _ _).symm
  rw [h1, ← List.toFinset_card_of_nodup hnk]
  have hset : ((buildMap ps).map Prod.fst).toFinset =
      (PIECES.map (fun pc => Constraint.piece pc.name)).toFinset ∪
        (coveredF ps).image Constraint.cell := by
    ext x
    rw [List.mem_toFinset, mem_keys_buildMap, Finset.mem_union, List.mem_toFinset,
      Finset.mem_image]
    constructor
    · rintro (⟨pc, hpc, rfl⟩ | ⟨p, hp, c, hc, rfl⟩)
      · exact Or.inl (List.mem_map.mpr ⟨pc, hpc, rfl⟩)
      · exact Or.inr ⟨c, (mem_coveredF ps c).mpr ⟨p, hp, hc⟩, rfl⟩
    · rintro (h | ⟨c, hc, rfl⟩)
      · obtain ⟨pc, hpc, hx⟩ := List.mem_map.mp h
        exact Or.inl ⟨pc, hpc, hx.symm⟩
      · obtain ⟨p, hp, hcc⟩ := (mem_coveredF ps c).mp hc
        exact Or.inr ⟨p, hp, c, hcc, rfl⟩
  have hdis : Disjoint ((PIECES.map (fun pc => Constraint.piece pc.name)).toFinset)
      ((coveredF ps).image Constraint.cell) := by
    rw [Finset.disjoint_left]
    intro x hx1 hx2
    obtain ⟨pc, hpc, hx⟩ := List.mem_map.mp (List.mem_toFinset.mp hx1)
    obtain ⟨c, hc, hcc⟩ := Finset.mem_image.mp hx2
    rw [← hx] at hcc
    cases hcc
  rw [hset, Finset.card_union_of_disjoint hdis,
    Finset.card_image_of_injective _ (fun a b h => Constraint.cell.inj h)]
  congr 1

theorem mem_PLACEMENTS_cells_valid {p : Placement} (hp : p ∈ PLACEMENTS) :
    ∀ c ∈ p.cells, validCell c := by
  obtain ⟨cell, hcell, po, hpo, orient, hor, hcp⟩ :=
    mem_PLACEMENTS_gen_iff.mp (mem_PLACEMENTS_iff.mp hp)
  exact compute_placement_cells_valid hcp

set_option maxHeartbeats 2000000 in
/-- Offset-level corner certificate: any valid anchored walk through the
corner `(0,0)` also passes through `(0,1)` or `(1,0)`. -/
theorem corner_block :
    ∀ pc ∈ PIECES, ∀ o ∈ orientationSet pc, ∀ u ∈ walkCells ⟨0, 0⟩ o.edges,
      (walkCells ⟨-u.row, -u.col⟩ o.edges).all validCell = true →
      ((⟨0, 1⟩ : Cell) ∈ walkCells ⟨-u.row, -u.col⟩ o.edges ∨
        (⟨1, 0⟩ : Cell) ∈ walkCells ⟨-u.row, -u.col⟩ o.edges) := by decide

theorem corner_uncoverable {rs : List Cell} (h01 : (⟨0, 1⟩ : Cell) ∈ rs)
    (h10 : (⟨1, 0⟩ : Cell) ∈ rs) {p : Placement}
    (hp : p ∈ filterReserved rs PLACEMENTS) : (⟨0, 0⟩ : Cell) ∉ p.cells := by
  intro h00
  obtain ⟨hpm, hav⟩ := List.mem_filter.mp hp
  have havP : ∀ r ∈ rs, r ∉ p.cells := by
    intro r hr
    have hr2 := List.all_eq_true.mp hav r hr
    simpa using hr2
  obtain ⟨pc, hpc, orient, hor, cell, hpiece, hname, hlen, hcells, hnd⟩ :=
    placement_structure hpm
  have hmemw : ∀ x : Cell, x ∈ p.cells ↔ x ∈ walkCells cell orient.edges := by
    intro x
    rw [hcells, mem_sortCells, List.mem_dedup]
  have h00w : (⟨0, 0⟩ : Cell) ∈ walkCells cell orient.edges := (hmemw _).mp h00
  have hsh := walkCells_shift cell orient.edges ⟨0, 0⟩
  have hc0 : shiftCell cell ⟨0, 0⟩ = cell := by
    cases cell
    simp [shiftCell]
  rw [hc0] at hsh
  rw [hsh] at h00w
  obtain ⟨u, hu, hshu⟩ := List.mem_map.mp h00w
  have hcell_eq : cell = ⟨-u.row, -u.col⟩ := by
    obtain ⟨ur, uc⟩ := u
    obtain ⟨cr, cc⟩ := cell
    simp only [shiftCell, Cell.mk.injEq] at hshu
    simp only [Cell.mk.injEq]
    constructor <;> omega
  have hvalid : (walkCells cell orient.edges).all validCell = true := by
    rw [List.all_eq_true]
    intro x hx
    exact mem_PLACEMENTS_cells_valid hpm x ((hmemw x).mpr hx)
  rw [hcell_eq] at hvalid
  have hcb := corner_block pc hpc orient hor u hu hvalid
  rcases hcb with hx | hx
  · exact havP _ h01 ((hmemw _).mpr (by rw [hcell_eq]; exact hx))
  · exact havP _ h10 ((hmemw _).mpr (by rw [hcell_eq]; exact hx))

theorem snd_pair {α β : Type} (a : α) (b : β) : (a, b).2 = b := rfl

theorem mem_PLACEMENTS_gen_intro {cell : Cell} {pc orient : Piece} {p : Placement}
    (hcell : cell ∈ allCells) (hpc : pc ∈ PIECES) (hor : orient ∈ orientationSet pc)
    (hcp : compute_placement cell orient = some p) : p ∈ PLACEMENTS := by
  rw [mem_PLACEMENTS_iff]
  unfold PLACEMENTS_gen
  refine List.mem_flatMap.mpr ⟨cell, hcell, ?_⟩
  have hor2 : orient ∈ ((pc.name, orientationSet pc) : String × List Piece).2 := by
    rw [snd_pair]
    exact hor
  refine List.mem_flatMap.mpr ⟨(pc.name, orientationSet pc), ?_, ?_⟩
  · unfold ORIENTATIONS
    exact List.mem_map.mpr ⟨pc, hpc, rfl⟩
  · exact List.mem_filterMap.mpr ⟨orient, hor2, hcp⟩

/-- A coverage certificate: to show a target cell is covered by some
placement of the filtered universe, name an anchor and an orientation
whose computed placement covers it and avoids the reserved cells. -/
def certProvides (rs : List Cell) (target anchor : Cell) (orient : Piece) : Bool :=
  decide (anchor ∈ allCells) &&
  PIECES.any (fun pc => decide (orient ∈ orientationSet pc)) &&
  match compute_placement anchor orient with
  | none => false
  | some pl => decide (target ∈ pl.cells) && rs.all (fun r => decide (r ∉ pl.cells))

theorem certProvides_spec {rs : List Cell} {target anchor : Cell} {orient : Piece}
    (h : certProvides rs target anchor orient = true) :
    ∃ p ∈ filterReserved rs PLACEMENTS, target ∈ p.cells := by
  unfold certProvides at h
  cases hcp : compute_placement anchor orient with
  | none =>
    rw [hcp] at h
    simp at h
  | some pl =>
    rw [hcp] at h
    simp only [Bool.and_eq_true, decide_eq_true_eq, List.any_eq_true] at h
    obtain ⟨⟨hanchor, pc, hpc, hor⟩, htgt, havoid⟩ := h
    have hmem : pl ∈ PLACEMENTS := mem_PLACEMENTS_gen_intro hanchor hpc hor hcp
    refine ⟨pl, List.mem_filter.mpr ⟨hmem, ?_⟩, htgt⟩
    rw [List.all_eq_true]
    intro r hr
    exact List.all_eq_true.mp havoid r hr

/-- Bulk certificate check: every cell of `ts` has a certificate in the
list pairing it with a witnessing anchor and orientation. -/
def coversList (rs : List Cell) (ts : List Cell)
    (certs : List (Cell × Cell × Piece)) : Bool :=
  ts.all (fun t =>
    certs.any (fun ct => decide (ct.1 = t) && certProvides rs t ct.2.1 ct.2.2))

theorem coversList_spec {rs ts : List Cell} {certs : List (Cell × Cell × Piece)}
    (h : coversList rs ts certs = true) :
    ∀ c ∈ ts, ∃ p ∈ filterReserved rs PLACEMENTS, c ∈ p.cells := by
  intro c hc
  have h2 := List.all_eq_true.mp h c hc
  rw [List.any_eq_true] at h2
  obtain ⟨ct, hct, hcond⟩ := h2
  rw [Bool.and_eq_true] at hcond
  exact certProvides_spec hcond.2

/-- The valid board cells left to cover once `rs` is reserved. -/
def targetsFor (rs : List Cell) : List Cell := validCells.filter (fun c => decide (c ∉ rs))

theorem coveredF_filtered_subset (rs : List Cell) :
    coveredF (filterReserved rs PLACEMENTS) ⊆ (targetsFor rs).toFinset := by
  intro c hc
  obtain ⟨p, hp, hcp⟩ := (mem_coveredF _ c).mp hc
  obtain ⟨hpm, hav⟩ := List.mem_filter.mp hp
  rw [List.mem_toFinset]
  refine List.mem_filter.mpr ⟨?_, ?_⟩
  · exact mem_validCells.mpr (mem_PLACEMENTS_cells_valid hpm c hcp)
  · rw [decide_eq_true_eq]
    intro hcr
    have hx := List.all_eq_true.mp hav c hcr
    rw [decide_eq_true_eq] at hx
    exact hx hcp

theorem coveredF_covers {rs : List Cell}
    (hcov : ∀ c ∈ targetsFor rs, ∃ p ∈ filterReserved rs PLACEMENTS, c ∈ p.cells) :
    (targetsFor rs).toFinset ⊆ coveredF (filterReserved rs PLACEMENTS) := by
  intro c hc
  obtain ⟨p, hp, hcp⟩ := hcov c (List.mem_toFinset.mp hc)
  exact (mem_coveredF _ c).mpr ⟨p, hp, hcp⟩

theorem coveredF_filtered_eq {rs : List Cell}
    (hcov : ∀ c ∈ targetsFor rs, ∃ p ∈ filterReserved rs PLACEMENTS, c ∈ p.cells) :
    coveredF (filterReserved rs PLACEMENTS) = (targetsFor rs).toFinset :=
  Finset.Subset.antisymm (coveredF_filtered_subset rs) (coveredF_covers hcov)

/-- A well-formed reserved set: three distinct valid cells. -/
def reservedOK (rs : List Cell) : Prop :=
  rs.length = 3 ∧ rs.Nodup ∧ ∀ r ∈ rs, validCell r = true

theorem targets_card {rs : List Cell} (h : reservedOK rs) :
    (targetsFor rs).toFinset.card = 47 := by
  obtain ⟨hlen, hnd, hval⟩ := h
  have hset : (targetsFor rs).toFinset = validCells.toFinset \ rs.toFinset := by
    ext c
    simp only [targetsFor, List.mem_toFinset, List.mem_filter, Finset.mem_sdiff,
      decide_eq_true_eq]
  have hsub : rs.toFinset ⊆ validCells.toFinset := by
    intro c hc
    rw [List.mem_toFinset] at hc ⊢
    exact mem_validCells.mpr (hval c hc)
  have h50 : validCells.toFinset.card = 50 := by decide
  have h3 : rs.toFinset.card = 3 := by
    rw [List.toFinset_card_of_nodup hnd, hlen]
  rw [hset, Finset.card_sdiff hsub, h50, h3]
def certsScenario : List (Cell × Cell × Piece) := [
  (⟨0, 0⟩, ⟨0, 0⟩, ⟨"Pento L", [e1 .D, e1 .R, e1 .R, e1 .R], "#FAFF81"⟩),
  (⟨0, 2⟩, ⟨0, 0⟩, ⟨"Pento U", [e1 .D, e1 .R, e1 .R, e1 .U], "#177E89"⟩),
  (⟨0, 3⟩, ⟨0, 2⟩, ⟨"Pento L", [e1 .R, e1 .D, e1 .D, e1 .D], "#FAFF81"⟩),
  (⟨0, 4⟩, ⟨0, 2⟩, ⟨"Pento P", [e1 .R, e1 .R, e1 .D, e1 .L], "#E06D06"⟩),
  (⟨0, 5⟩, ⟨0, 2⟩, ⟨"Tetr I", [e1 .R, e1 .R, e1 .R], "#63A088"⟩),
  (⟨1, 0⟩, ⟨0, 0⟩, ⟨"Pento L", [e1 .D, e1 .R, e1 .R, e1 .R], "#FAFF81"⟩),
  (⟨1, 1⟩, ⟨0, 0⟩, ⟨"Pento L", [e1 .D, e1 .R, e1 .R, e1 .R], "#FAFF81"⟩),
  (⟨1, 2⟩, ⟨0, 0⟩, ⟨"Pento L", [e1 .D, e1 .R, e1 .R, e1 .R], "#FAFF81"⟩),
  (⟨1, 3⟩, ⟨0, 0⟩, ⟨"Pento L", [e1 .D, e1 .R, e1 .R, e1 .R], "#FAFF81"⟩),
  (⟨1, 4⟩, ⟨0, 2⟩, ⟨"Pento L", [e1 .D, e1 .R, e1 .R, e1 .R], "#FAFF81"⟩),
  (⟨1, 5⟩, ⟨0, 2⟩, ⟨"Pento L", [e1 .D, e1 .R, e1 .R, e1 .R], "#FAFF81"⟩),
  (⟨2, 0⟩, ⟨0, 0⟩, ⟨"Pento P", [e1 .D, e1 .D, e1 .R, e1 .U], "#E06D06"⟩),
  (⟨2, 1⟩, ⟨0, 0⟩, ⟨"Pento P", [e1 .D, e1 .D, e1 .R, e1 .U], "#E06D06"⟩),
  (⟨2, 3⟩, ⟨0, 2⟩, ⟨"Pento L", [e1 .R, e1 .D, e1 .D, e1 .D], "#FAFF81"⟩),
  (⟨2, 4⟩, ⟨0, 2⟩, ⟨"Pento V", [e1 .R, e1 .R, e1 .D, e1 .D], "#004E89"⟩),
  (⟨2, 5⟩, ⟨0, 3⟩, ⟨"Pento V", [e1 .R, e1 .R, e1 .D, e1 .D], "#004E89"⟩),
  (⟨2, 6⟩, ⟨0, 4⟩, ⟨"Pento V", [e1 .D, e1 .D, e1 .R, e1 .R], "#004E89"⟩),
  (⟨3, 0⟩, ⟨0, 0⟩, ⟨"Tetr I", [e1 .D, e1 .D, e1 .D], "#63A088"⟩),
  (⟨3, 1⟩, ⟨0, 0⟩, ⟨"Pento N", [e1 .D, e1 .R, e1 .D, e1 .D], "#B26700"⟩),
  (⟨3, 2⟩, ⟨1, 0⟩, ⟨"Pento V", [e1 .D, e1 .D, e1 .R, e1 .R], "#004E89"⟩),
  (⟨3, 3⟩, ⟨0, 2⟩, ⟨"Pento L", [e1 .R, e1 .D, e1 .D, e1 .D], "#FAFF81"⟩),
  (⟨3, 4⟩, ⟨0, 3⟩, ⟨"Pento L", [e1 .R, e1 .D, e1 .D, e1 .D], "#FAFF81"⟩),
  (⟨3, 5⟩, ⟨0, 4⟩, ⟨"Pento L", [e1 .R, e1 .D, e1 .D, e1 .D], "#FAFF81"⟩),
  (⟨3, 6⟩, ⟨1, 4⟩, ⟨"Pento V", [e1 .D, e1 .D, e1 .R, e1 .R], "#004E89"⟩),
  (⟨4, 0⟩, ⟨1, 0⟩, ⟨"Tetr I", [e1 .D, e1 .D, e1 .D], "#63A088"⟩),
  (⟨4, 1⟩, ⟨1, 0⟩, ⟨"Pento L", [e1 .R, e1 .D, e1 .D, e1 .D], "#FAFF81"⟩),
  (⟨4, 2⟩, ⟨2, 0⟩, ⟨"Pento V", [e1 .D, e1 .D, e1 .R, e1 .R], "#004E89"⟩),
  (⟨4, 3⟩, ⟨1, 2⟩, ⟨"Pento L", [e1 .R, e1 .D, e1 .D, e1 .D], "#FAFF81"⟩),
  (⟨4, 4⟩, ⟨1, 3⟩, ⟨"Pento L", [e1 .R, e1 .D, e1 .D, e1 .D], "#FAFF81"⟩),
  (⟨4, 5⟩, ⟨1, 4⟩, ⟨"Pento L", [e1 .R, e1 .D, e1 .D, e1 .D], "#FAFF81"⟩),
  (⟨4, 6⟩, ⟨1, 5⟩, ⟨"Pento N", [e1 .D, e1 .R, e1 .D, e1 .D], "#B26700"⟩),
  (⟨5, 0⟩, ⟨2, 0⟩, ⟨"Tetr I", [e1 .D, e1 .D, e1 .D], "#63A088"⟩),
  (⟨5, 1⟩, ⟨2, 0⟩, ⟨"Pento L", [e1 .R, e1 .D, e1 .D, e1 .D], "#FAFF81"⟩),
  (⟨5, 2⟩, ⟨2, 1⟩, ⟨"Pento N", [e1 .D, e1 .R, e1 .D, e1 .D], "#B26700"⟩),
  (⟨5, 3⟩, ⟨2, 3⟩, ⟨"Tetr I", [e1 .D, e1 .D, e1 .D], "#63A088"⟩),
  (⟨5, 4⟩, ⟨2, 3⟩, ⟨"Pento L", [e1 .R, e1 .D, e1 .D, e1 .D], "#FAFF81"⟩),
  (⟨5, 5⟩, ⟨2, 4⟩, ⟨"Pento L", [e1 .R, e1 .D, e1 .D, e1 .D], "#FAFF81"⟩),
  (⟨5, 6⟩, ⟨2, 5⟩, ⟨"Pento L", [e1 .R, e1 .D, e1 .D, e1 .D], "#FAFF81"⟩),
  (⟨6, 0⟩, ⟨3, 0⟩, ⟨"Tetr I", [e1 .D, e1 .D, e1 .D], "#63A088"⟩),
  (⟨6, 1⟩, ⟨3, 0⟩, ⟨"Pento L", [e1 .R, e1 .D, e1 .D, e1 .D], "#FAFF81"⟩),
  (⟨6, 2⟩, ⟨3, 1⟩, ⟨"Pento L", [e1 .R, e1 .D, e1 .D, e1 .D], "#FAFF81"⟩),
  (⟨6, 3⟩, ⟨3, 2⟩, ⟨"Pento L", [e1 .R, e1 .D, e1 .D, e1 .D], "#FAFF81"⟩),
  (⟨6, 4⟩, ⟨3, 3⟩, ⟨"Pento L", [e1 .R, e1 .D, e1 .D, e1 .D], "#FAFF81"⟩),
  (⟨6, 6⟩, ⟨3, 5⟩, ⟨"Pento L", [e1 .R, e1 .D, e1 .D, e1 .D], "#FAFF81"⟩),
  (⟨7, 4⟩, ⟨4, 3⟩, ⟨"Pento L", [e1 .R, e1 .D, e1 .D, e1 .D], "#FAFF81"⟩),
  (⟨7, 5⟩, ⟨5, 3⟩, ⟨"Pento Z", [e1 .R, e1 .D, e1 .D, e1 .R], "#412234"⟩),
  (⟨7, 6⟩, ⟨4, 5⟩, ⟨"Pento L", [e1 .R, e1 .D, e1 .D, e1 .D], "#FAFF81"⟩)]

def certsInvalidDay : List (Cell × Cell × Piece) := [
  (⟨0, 2⟩, ⟨0, 2⟩, ⟨"Pento L", [e1 .R, e1 .D, e1 .D, e1 .D], "#FAFF81"⟩),
  (⟨0, 3⟩, ⟨0, 2⟩, ⟨"Pento L", [e1 .R, e1 .D, e1 .D, e1 .D], "#FAFF81"⟩),
  (⟨0, 4⟩, ⟨0, 2⟩, ⟨"Pento P", [e1 .R, e1 .R, e1 .D, e1 .L], "#E06D06"⟩),
  (⟨0, 5⟩, ⟨0, 2⟩, ⟨"Tetr I", [e1 .R, e1 .R, e1 .R], "#63A088"⟩),
  (⟨1, 1⟩, ⟨0, 2⟩, ⟨"Pento P", [e1 .D, e1 .D, e1 .L, e1 .U], "#E06D06"⟩),
  (⟨1, 2⟩, ⟨0, 2⟩, ⟨"Pento L", [e1 .D, e1 .R, e1 .R, e1 .R], "#FAFF81"⟩),
  (⟨1, 3⟩, ⟨0, 2⟩, ⟨"Pento L", [e1 .R, e1 .D, e1 .D, e1 .D], "#FAFF81"⟩),
  (⟨1, 4⟩, ⟨0, 2⟩, ⟨"Pento L", [e1 .D, e1 .R, e1 .R, e1 .R], "#FAFF81"⟩),
  (⟨1, 5⟩, ⟨0, 2⟩, ⟨"Pento L", [e1 .D, e1 .R, e1 .R, e1 .R], "#FAFF81"⟩),
  (⟨2, 0⟩, ⟨0, 2⟩, ⟨"Pento V", [e1 .D, e1 .D, e1 .L, e1 .L], "#004E89"⟩),
  (⟨2, 1⟩, ⟨0, 2⟩, ⟨"Pento T", [e1 .D, e1 .D, e1 .R, (⟨.L, 2⟩ : Edge)], "#FFC53A"⟩),
  (⟨2, 2⟩, ⟨0, 2⟩, ⟨"Pento T", [e1 .D, e1 .D, e1 .R, (⟨.L, 2⟩ : Edge)], "#FFC53A"⟩),
  (⟨2, 3⟩, ⟨0, 2⟩, ⟨"Pento L", [e1 .R, e1 .D, e1 .D, e1 .D], "#FAFF81"⟩),
  (⟨2, 4⟩, ⟨0, 2⟩, ⟨"Pento V", [e1 .R, e1 .R, e1 .D, e1 .D], "#004E89"⟩),
  (⟨2, 5⟩, ⟨0, 3⟩, ⟨"Pento V", [e1 .R, e1 .R, e1 .D, e1 .D], "#004E89"⟩),
  (⟨2, 6⟩, ⟨0, 4⟩, ⟨"Pento V", [e1 .D, e1 .D, e1 .R, e1 .R], "#004E89"⟩),
  (⟨3, 0⟩, ⟨1, 1⟩, ⟨"Pento T", [e1 .D, e1 .D, e1 .R, (⟨.L, 2⟩ : Edge)], "#FFC53A"⟩),
  (⟨3, 1⟩, ⟨0, 2⟩, ⟨"Pento N", [e1 .D, e1 .L, e1 .D, e1 .D], "#B26700"⟩),
  (⟨3, 2⟩, ⟨0, 2⟩, ⟨"Tetr I", [e1 .D, e1 .D, e1 .D], "#63A088"⟩),
  (⟨3, 3⟩, ⟨0, 2⟩, ⟨"Pento L", [e1 .R, e1 .D, e1 .D, e1 .D], "#FAFF81"⟩),
  (⟨3, 4⟩, ⟨0, 3⟩, ⟨"Pento L", [e1 .R, e1 .D, e1 .D, e1 .D], "#FAFF81"⟩),
  (⟨3, 5⟩, ⟨0, 4⟩, ⟨"Pento L", [e1 .R, e1 .D, e1 .D, e1 .D], "#FAFF81"⟩),
  (⟨3, 6⟩, ⟨1, 4⟩, ⟨"Pento V", [e1 .D, e1 .D, e1 .R, e1 .R], "#004E89"⟩),
  (⟨4, 0⟩, ⟨1, 1⟩, ⟨"Pento N", [e1 .D, e1 .L, e1 .D, e1 .D], "#B26700"⟩),
  (⟨4, 1⟩, ⟨1, 1⟩, ⟨"Tetr I", [e1 .D, e1 .D, e1 .D], "#63A088"⟩),
  (⟨4, 2⟩, ⟨1, 1⟩, ⟨"Pento L", [e1 .R, e1 .D, e1 .D, e1 .D], "#FAFF81"⟩),
  (⟨4, 3⟩, ⟨1, 2⟩, ⟨"Pento L", [e1 .R, e1 .D, e1 .D, e1 .D], "#FAFF81"⟩),
  (⟨4, 4⟩, ⟨1, 3⟩, ⟨"Pento L", [e1 .R, e1 .D, e1 .D, e1 .D], "#FAFF81"⟩),
  (⟨4, 5⟩, ⟨1, 4⟩, ⟨"Pento L", [e1 .R, e1 .D, e1 .D, e1 .D], "#FAFF81"⟩),
  (⟨4, 6⟩, ⟨1, 5⟩, ⟨"Pento N", [e1 .D, e1 .R, e1 .D, e1 .D], "#B26700"⟩),
  (⟨5, 0⟩, ⟨2, 0⟩, ⟨"Tetr I", [e1 .D, e1 .D, e1 .D], "#63A088"⟩),
  (⟨5, 1⟩, ⟨2, 0⟩, ⟨"Pento L", [e1 .R, e1 .D, e1 .D, e1 .D], "#FAFF81"⟩),
  (⟨5, 2⟩, ⟨2, 1⟩, ⟨"Pento L", [e1 .R, e1 .D, e1 .D, e1 .D], "#FAFF81"⟩),
  (⟨5, 3⟩, ⟨2, 2⟩, ⟨"Pento L", [e1 .R, e1 .D, e1 .D, e1 .D], "#FAFF81"⟩),
  (⟨5, 4⟩, ⟨2, 3⟩, ⟨"Pento L", [e1 .R, e1 .D, e1 .D, e1 .D], "#FAFF81"⟩),
  (⟨5, 5⟩, ⟨2, 4⟩, ⟨"Pento L", [e1 .R, e1 .D, e1 .D, e1 .D], "#FAFF81"⟩),
  (⟨5, 6⟩, ⟨2, 5⟩, ⟨"Pento L", [e1 .R, e1 .D, e1 .D, e1 .D], "#FAFF81"⟩),
  (⟨6, 0⟩, ⟨3, 0⟩, ⟨"Tetr I", [e1 .D, e1 .D, e1 .D], "#63A088"⟩),
  (⟨6, 1⟩, ⟨3, 0⟩, ⟨"Pento L", [e1 .R, e1 .D, e1 .D, e1 .D], "#FAFF81"⟩),
  (⟨6, 2⟩, ⟨3, 1⟩, ⟨"Pento L", [e1 .R, e1 .D, e1 .D, e1 .D], "#FAFF81"⟩),
  (⟨6, 3⟩, ⟨3, 2⟩, ⟨"Pento L", [e1 .R, e1 .D, e1 .D, e1 .D], "#FAFF81"⟩),
  (⟨6, 4⟩, ⟨3, 3⟩, ⟨"Pento L", [e1 .R, e1 .D, e1 .D, e1 .D], "#FAFF81"⟩),
  (⟨6, 5⟩, ⟨3, 4⟩, ⟨"Pento L", [e1 .R, e1 .D, e1 .D, e1 .D], "#FAFF81"⟩),
  (⟨6, 6⟩, ⟨3, 5⟩, ⟨"Pento L", [e1 .R, e1 .D, e1 .D, e1 .D], "#FAFF81"⟩),
  (⟨7, 4⟩, ⟨4, 3⟩, ⟨"Pento L", [e1 .R, e1 .D, e1 .D, e1 .D], "#FAFF81"⟩),
  (⟨7, 5⟩, ⟨4, 4⟩, ⟨"Pento L", [e1 .R, e1 .D, e1 .D, e1 .D], "#FAFF81"⟩),
  (⟨7, 6⟩, ⟨4, 5⟩, ⟨"Pento L", [e1 .R, e1 .D, e1 .D, e1 .D], "#FAFF81"⟩)]

set_option maxHeartbeats 4000000 in
theorem certsScenario_check :
    coversList [⟨0, 1⟩, ⟨2, 2⟩, ⟨6, 5⟩] (targetsFor [⟨0, 1⟩, ⟨2, 2⟩, ⟨6, 5⟩])
      certsScenario = true := by decide

set_option maxHeartbeats 4000000 in
theorem certsInvalidDay_check :
    coversList [⟨0, 6⟩, ⟨0, 1⟩, ⟨1, 0⟩]
      ((targetsFor [⟨0, 6⟩, ⟨0, 1⟩, ⟨1, 0⟩]).filter (fun c => decide (c ≠ ⟨0, 0⟩)))
      certsInvalidDay = true := by decide

/-- C3 (amended): for a reserved set of three distinct valid cells, IF every
remaining valid cell is covered by some placement of the filtered universe,
then the constraint dict has exactly `10 + 47 = 57` keys. (The coverage
proviso is not implied by validity alone: see the counterexample.) -/
theorem C3_constraint_count (rs : List Cell) (hok : reservedOK rs)
    (hcov : ∀ c ∈ targetsFor rs, ∃ p ∈ filterReserved rs PLACEMENTS, c ∈ p.cells) :
    (buildMap (filterReserved rs PLACEMENTS)).length =
      PIECES.length + NUM_CELLS_TO_COVER := by
  rw [buildMap_length, coveredF_filtered_eq hcov, targets_card hok]
  rfl

theorem C3_constraint_count_witness :
    (buildMap (filterReserved [⟨0, 1⟩, ⟨2, 2⟩, ⟨6, 5⟩] PLACEMENTS)).length =
      PIECES.length + NUM_CELLS_TO_COVER :=
  C3_constraint_count [⟨0, 1⟩, ⟨2, 2⟩, ⟨6, 5⟩]
    ⟨rfl, by decide, by decide⟩
    (coversList_spec certsScenario_check)

/-- C3 (counterexample): the reserved set `{(0,1),(1,0),(2,2)}` consists of
three distinct valid cells, yet the constraint dict has only 56 keys — the
corner `(0,0)` is uncoverable once `(0,1)` and `(1,0)` are reserved, so no
`(0,0)` cell key is ever created and the assert fires. -/
theorem C3_counterexample :
    reservedOK [⟨0, 1⟩, ⟨1, 0⟩, ⟨2, 2⟩] ∧
      (buildMap (filterReserved [⟨0, 1⟩, ⟨1, 0⟩, ⟨2, 2⟩] PLACEMENTS)).length ≠
        PIECES.length + NUM_CELLS_TO_COVER := by
  refine ⟨⟨rfl, by decide, by decide⟩, ?_⟩
  intro heq
  rw [buildMap_length] at heq
  have hsub : coveredF (filterReserved [⟨0, 1⟩, ⟨1, 0⟩, ⟨2, 2⟩] PLACEMENTS) ⊆
      (targetsFor [⟨0, 1⟩, ⟨1, 0⟩, ⟨2, 2⟩]).toFinset.erase ⟨0, 0⟩ := by
    intro c hc
    rw [Finset.mem_erase]
    refine ⟨?_, coveredF_filtered_subset _ hc⟩
    rintro rfl
    obtain ⟨p, hp, hcp⟩ := (mem_coveredF _ _).mp hc
    exact corner_uncoverable (by decide) (by decide) hp hcp
  have hcard := Finset.card_le_card hsub
  have h46 : ((targetsFor [⟨0, 1⟩, ⟨1, 0⟩, ⟨2, 2⟩]).toFinset.erase ⟨0, 0⟩).card = 46 := by
    decide
  rw [h46] at hcard
  rw [show PIECES.length = 10 from rfl, show NUM_CELLS_TO_COVER = 47 from rfl] at heq
  omega

/-- C7 (amended): what the code actually guards before searching is the
dict-cardinality assert alone — whenever the constraint dict does not have
exactly `10 + 47` keys, `solve_x` aborts before any search. -/
theorem C7_bad_count_rejects (fuel : Nat) (ps : List Placement)
    (h : (buildMap ps).length ≠ PIECES.length + NUM_CELLS_TO_COVER) :
    solve_x fuel ps = SolveXRes.badConstraintCount := by
  unfold solve_x
  rw [if_neg h]

theorem C7_bad_count_rejects_witness :
    solve_x 0 [] = SolveXRes.badConstraintCount :=
  C7_bad_count_rejects 0 [] (by decide)

theorem solve_x_ne_bad {fuel : Nat} {ps : List Placement}
    (h : (buildMap ps).length = PIECES.length + NUM_CELLS_TO_COVER) :
    solve_x fuel ps ≠ SolveXRes.badConstraintCount := by
  unfold solve_x
  rw [if_pos h]
  cases hres : solve fuel (buildMap ps) with
  | mk r m2 => cases r <;> simp

/-- C7 (counterexample): the reserved set for an out-of-range query can
contain the permanently-invalid cell `(0,6)` and still pass the only guard
there is — the 57-key assert — so the search begins instead of the query
being rejected: no InvalidInput-style rejection exists in the code. -/
theorem C7_invalid_cell_reaches_search :
    validCell ⟨0, 6⟩ = false ∧
      ∀ fuel : Nat,
        solve_x fuel (filterReserved [⟨0, 6⟩, ⟨0, 1⟩, ⟨1, 0⟩] PLACEMENTS) ≠
          SolveXRes.badConstraintCount := by
  refine ⟨by decide, ?_⟩
  intro fuel
  refine solve_x_ne_bad ?_
  rw [buildMap_length]
  have hset : coveredF (filterReserved [⟨0, 6⟩, ⟨0, 1⟩, ⟨1, 0⟩] PLACEMENTS) =
      (targetsFor [⟨0, 6⟩, ⟨0, 1⟩, ⟨1, 0⟩]).toFinset.erase ⟨0, 0⟩ := by
    apply Finset.Subset.antisymm
    · intro c hc
      rw [Finset.mem_erase]
      refine ⟨?_, coveredF_filtered_subset _ hc⟩
      rintro rfl
      obtain ⟨p, hp, hcp⟩ := (mem_coveredF _ _).mp hc
      exact corner_uncoverable (by decide) (by decide) hp hcp
    · intro c hc
      rw [Finset.mem_erase] at hc
      obtain ⟨hne, hmem⟩ := hc
      have hts : c ∈ (targetsFor [⟨0, 6⟩, ⟨0, 1⟩, ⟨1, 0⟩]).filter
          (fun c => decide (c ≠ ⟨0, 0⟩)) :=
        List.mem_filter.mpr ⟨List.mem_toFinset.mp hmem, decide_eq_true hne⟩
      obtain ⟨p, hp, hcp⟩ := coversList_spec certsInvalidDay_check c hts
      exact (mem_coveredF _ c).mpr ⟨p, hp, hcp⟩
  rw [hset]
  have hcard : ((targetsFor [⟨0, 6⟩, ⟨0, 1⟩, ⟨1, 0⟩]).toFinset.erase ⟨0, 0⟩).card = 47 := by
    decide
  rw [hcard]
  rfl

theorem PLACEMENTS_nodup : PLACEMENTS.Nodup := List.nodup_dedup _

theorem mem_PLACEMENTS_cells_nodup {p : Placement} (hp : p ∈ PLACEMENTS) : p.cells.Nodup := by
  obtain ⟨cell, hcell, po, hpo, orient, hor, hcp⟩ :=
    mem_PLACEMENTS_gen_iff.mp (mem_PLACEMENTS_iff.mp hp)
  exact compute_placement_cells_nodup hcp

theorem mem_PLACEMENTS_name {p : Placement} (hp : p ∈ PLACEMENTS) :
    ∃ pc ∈ PIECES, p.piece.name = pc.name := by
  obtain ⟨pc, hpc, orient, hor, cell, hpiece, hname, _, _, _⟩ := placement_structure hp
  exact ⟨pc, hpc, by rw [hpiece, hname]⟩

theorem mem_filterReserved {rs : List Cell} {p : Placement}
    (hp : p ∈ filterReserved rs PLACEMENTS) :
    p ∈ PLACEMENTS ∧ ∀ r ∈ rs, r ∉ p.cells := by
  obtain ⟨h1, h2⟩ := List.mem_filter.mp hp
  refine ⟨h1, ?_⟩
  intro r hr
  have hx := List.all_eq_true.mp h2 r hr
  simpa using hx

theorem filterReserved_nodup (rs : List Cell) : (filterReserved rs PLACEMENTS).Nodup :=
  PLACEMENTS_nodup.filter _

theorem length_eq_sum_counts (N : Finset String) :
    ∀ (sol : List Placement), (∀ q ∈ sol, q.piece.name ∈ N) →
      sol.length = ∑ n in N, sol.countP (fun q => decide (q.piece.name = n)) := by
  intro sol
  induction sol with
  | nil =>
    intro _
    simp
  | cons q sol ih =>
    intro hall
    have hq := hall q (by simp)
    rw [List.length_cons, ih (fun x hx => hall x (by simp [hx]))]
    have hstep : ∀ n : String, (q :: sol).countP (fun r => decide (r.piece.name = n)) =
        sol.countP (fun r => decide (r.piece.name = n)) +
          (if q.piece.name = n then 1 else 0) := by
      intro n
      rw [List.countP_cons]
      by_cases h : q.piece.name = n <;> simp [h]
    rw [Finset.sum_congr rfl (fun n _ => hstep n), Finset.sum_add_distrib]
    have hsum1 : (∑ n in N, if q.piece.name = n then 1 else 0) = 1 := by
      rw [Finset.sum_ite_eq N q.piece.name (fun _ => 1), if_pos hq]
    omega

/-- What cover completeness asserts of a `solve_x` outcome: if a solution
list is returned, every valid non-reserved cell lies in exactly one
returned placement, every returned placement stays on valid non-reserved
cells, each catalog piece name occurs in exactly one returned placement,
and exactly ten placements are returned. -/
def C2Cover (rs : List Cell) (x : SolveXRes) : Prop :=
  ∀ sol : List Placement, x = SolveXRes.solution sol →
    (∀ c : Cell, validCell c = true → c ∉ rs →
      sol.countP (fun q => decide (c ∈ q.cells)) = 1) ∧
    (∀ p ∈ sol, ∀ c ∈ p.cells, validCell c = true ∧ c ∉ rs) ∧
    (∀ pc ∈ PIECES, sol.countP (fun q => decide (q.piece.name = pc.name)) = 1) ∧
    sol.length = PIECES.length

/-- C2: Cover completeness — for a reserved set of three distinct valid
cells, whenever `solve_x` on the filtered universe returns a solution, the
returned placements exactly tile the valid cells minus the reserved ones:
each such cell is in exactly one placement, no placement touches a
reserved or invalid cell, each of the 10 piece names is used exactly
once, and exactly 10 placements are returned. -/
theorem C2_cover_completeness (rs : List Cell) (fuel : Nat) (hok : reservedOK rs) :
    C2Cover rs (solve_x fuel (filterReserved rs PLACEMENTS)) := by
  unfold C2Cover solve_x
  by_cases hguard : (buildMap (filterReserved rs PLACEMENTS)).length =
      PIECES.length + NUM_CELLS_TO_COVER
  case neg =>
    rw [if_neg hguard]
    intro sol heq
    exact absurd heq (by simp)
  rw [if_pos hguard]
  cases hres : solve fuel (buildMap (filterReserved rs PLACEMENTS)) with
  | mk r m2 =>
    cases r with
    | nosol =>
      intro sol heq
      exact absurd heq (by simp)
    | err =>
      intro sol heq
      exact absurd heq (by simp)
    | fuelOut =>
      intro sol heq
      exact absurd heq (by simp)
    | found sol0 =>
      intro sol heq
      have hss : sol = sol0 := by
        have hx : sol0 = sol := by simpa using heq
        exact hx.symm
      subst hss
      have hnodup : (filterReserved rs PLACEMENTS).Nodup := filterReserved_nodup rs
      have hcn : ∀ p ∈ filterReserved rs PLACEMENTS, p.cells.Nodup := fun p hp =>
        mem_PLACEMENTS_cells_nodup (mem_filterReserved hp).1
      have hnames : ∀ p ∈ filterReserved rs PLACEMENTS,
          ∃ pc ∈ PIECES, p.piece.name = pc.name := fun p hp =>
        mem_PLACEMENTS_name (mem_filterReserved hp).1
      have hinv : MInv (buildMap (filterReserved rs PLACEMENTS)) :=
        MInv_buildMap hnodup hcn hnames
      obtain ⟨S1, S2, S3⟩ := solve_sound fuel _ sol m2 hinv hres
      have hsolps : ∀ q ∈ sol, q ∈ filterReserved rs PLACEMENTS := fun q hq =>
        InMap_buildMap hnodup hcn (S3 q hq)
      have hcovcard : (coveredF (filterReserved rs PLACEMENTS)).card = 47 := by
        have hb := buildMap_length (filterReserved rs PLACEMENTS)
        rw [hguard] at hb
        have h47 : NUM_CELLS_TO_COVER = 47 := rfl
        omega
      have hteq : coveredF (filterReserved rs PLACEMENTS) = (targetsFor rs).toFinset := by
        refine Finset.eq_of_subset_of_card_le (coveredF_filtered_subset rs) ?_
        rw [targets_card hok, hcovcard]
      have hpcount : ∀ pc ∈ PIECES,
          sol.countP (fun q => decide (q.piece.name = pc.name)) = 1 := by
        intro pc hpc
        have hkey : (mlookup (buildMap (filterReserved rs PLACEMENTS))
            (Constraint.piece pc.name)).isSome := by
          rw [mlookup_isSome_iff_mem_keys]
          exact (mem_keys_buildMap _ _).mpr (Or.inl ⟨pc, hpc, rfl⟩)
        have hc1 := S1 _ hkey
        rw [← hc1]
        refine List.countP_congr ?_
        intro q hq
        rw [decide_eq_true_eq, decide_eq_true_eq, mem_satisfied_piece]
        exact eq_comm
      refine ⟨?_, ?_, hpcount, ?_⟩
      · intro c hval hnr
        have hct : c ∈ (targetsFor rs).toFinset := by
          rw [List.mem_toFinset]
          exact List.mem_filter.mpr ⟨mem_validCells.mpr hval, decide_eq_true hnr⟩
        rw [← hteq] at hct
        obtain ⟨p, hpps, hcp⟩ := (mem_coveredF _ c).mp hct
        have hkey : (mlookup (buildMap (filterReserved rs PLACEMENTS))
            (Constraint.cell c)).isSome := by
          rw [mlookup_isSome_iff_mem_keys]
          exact (mem_keys_buildMap _ _).mpr (Or.inr ⟨p, hpps, c, hcp, rfl⟩)
        have hc1 := S1 _ hkey
        rw [← hc1]
        refine List.countP_congr ?_
        intro q hq
        rw [decide_eq_true_eq, decide_eq_true_eq]
        exact (mem_satisfied_cell q c).symm
      · intro p hp c hc
        obtain ⟨hpm, havoid⟩ := mem_filterReserved (hsolps p hp)
        refine ⟨mem_PLACEMENTS_cells_valid hpm c hc, ?_⟩
        intro hcr
        exact havoid c hcr hc
      · have hN : ((PIECES.map (fun pc => pc.name)).toFinset).card = PIECES.length := by
          decide
        have hmem : ∀ q ∈ sol, q.piece.name ∈ (PIECES.map (fun pc => pc.name)).toFinset := by
          intro q hq
          obtain ⟨pc, hpc, hn⟩ := mem_PLACEMENTS_name (mem_filterReserved (hsolps q hq)).1
          rw [List.mem_toFinset]
          exact List.mem_map.mpr ⟨pc, hpc, hn.symm⟩
        rw [length_eq_sum_counts _ sol hmem]
        have hone : ∀ n ∈ (PIECES.map (fun pc => pc.name)).toFinset,
            sol.countP (fun q => decide (q.piece.name = n)) = 1 := by
          intro n hn
          obtain ⟨pc, hpc, hn2⟩ := List.mem_map.mp (List.mem_toFinset.mp hn)
          rw [← hn2]
          exact hpcount pc hpc
        rw [Finset.sum_congr rfl hone, Finset.sum_const, smul_eq_mul, mul_one, hN]

theorem C2_cover_completeness_witness :
    reservedOK [⟨0, 1⟩, ⟨2, 2⟩, ⟨6, 5⟩] ∧
      C2Cover [⟨0, 1⟩, ⟨2, 2⟩, ⟨6, 5⟩]
        (solve_x 0 (filterReserved [⟨0, 1⟩, ⟨2, 2⟩, ⟨6, 5⟩] PLACEMENTS)) :=
  ⟨⟨rfl, by decide, by decide⟩,
    C2_cover_completeness [⟨0, 1⟩, ⟨2, 2⟩, ⟨6, 5⟩] 0 ⟨rfl, by decide, by decide⟩⟩
